import Mathlib

/-!
# Verification of the portfolio_ingest snapshot reconciliation engine

A shallow embedding of `src/portfolio_ingest` (models.py, db.py, runner.py,
app.py, sources/utils.py, sources/screener.py, sources/trendlyne.py).

Conventions of the embedding:
* Python `None`/missing values become `Option`.
* Python floats only ever carry parsed decimal literals here and are never
  subjected to arithmetic, so they are embedded as exact rationals `ℚ`.
* Functions that can raise return `Except`.
* The relational store (PostgreSQL accessed through SQLAlchemy) is embedded as
  an explicit `DB` state: each table is a list of row structures plus a
  next-autoincrement counter; the `ON CONFLICT` upserts of db.py become
  find-then-update-or-append on those lists.  `created_at`/`updated_at`
  timestamp columns are not modelled (no claim depends on their values).
-/

instance {ε α : Type} [DecidableEq ε] [DecidableEq α] : DecidableEq (Except ε α) := fun x y =>
  match x, y with
  | .ok u, .ok v =>
    if h : u = v then .isTrue (by rw [h]) else .isFalse (by simp [h])
  | .error u, .error v =>
    if h : u = v then .isTrue (by rw [h]) else .isFalse (by simp [h])
  | .ok _, .error _ => .isFalse (by simp)
  | .error _, .ok _ => .isFalse (by simp)

/-- Calendar date (year, month, day), the embedding of Python `datetime.date`
as produced by `sources/utils.py::parse_date`. -/
structure Date where
  year : Nat
  month : Nat
  day : Nat
deriving DecidableEq, Repr

/-- The single error value used to embed Python exceptions raised while
parsing (`ValueError` from `float`/`int`, `dateutil` parser errors). -/
inductive PErr where
  | parseError
deriving DecidableEq, Repr

/-- models.py `Holding` dataclass. -/
structure Holding where
  investor : String
  ticker : String
  source_url : String
  percent_holding : Option ℚ := none
  shares : Option Int := none
  reported_date : Option Date := none
deriving DecidableEq, Repr

/-- models.py `Deal` dataclass. -/
structure Deal where
  investor : String
  ticker : String
  source_url : String
  deal_date : Date
  quantity : Option Int
  price : Option ℚ
  deal_type : String
  side : String
deriving DecidableEq, Repr

/-! ## Character-list string primitives

The Lean core `String` functions (`trim`, `replace`, `split`, …) do not
reduce well inside the kernel, so the Python string operations used by the
source are embedded as explicit `List Char` manipulations.  `String.toList`
and `String.mk` mediate between the two views. -/

/-- Python `str.strip()`: drop leading and trailing whitespace. -/
def pyStrip (l : List Char) : List Char :=
  ((l.dropWhile Char.isWhitespace).reverse.dropWhile Char.isWhitespace).reverse

/-- Python `str.replace(c, "")` for a single character: remove every
occurrence. -/
def removeChar (c : Char) (l : List Char) : List Char :=
  l.filter (fun x => x ≠ c)

/-- Python `str.lower()` on ASCII letters. -/
def pyLowerChar (c : Char) : Char :=
  if 'A' ≤ c ∧ c ≤ 'Z' then Char.ofNat (c.toNat + 32) else c

/-- Python `str.lower()` applied to a string. -/
def pyLower (s : String) : String :=
  String.mk (s.toList.map pyLowerChar)

/-- Python `str.upper()` on ASCII letters. -/
def pyUpperChar (c : Char) : Char :=
  if 'a' ≤ c ∧ c ≤ 'z' then Char.ofNat (c.toNat - 32) else c

/-- Python `str.upper()` applied to a string. -/
def pyUpper (s : String) : String :=
  String.mk (s.toList.map pyUpperChar)

/-- Split a character list on every character satisfying `p`
(Python `re`-style split used to model `str.split`). -/
def splitChars (p : Char → Bool) : List Char → List (List Char)
  | [] => [[]]
  | c :: rest =>
    let r := splitChars p rest
    if p c then [] :: r
    else
      match r with
      | [] => [[c]]
      | g :: gs => (c :: g) :: gs

/-- Split at the first occurrence of `c`: Python `str.split(c, 1)`.
Returns the part before and (when `c` occurs) the part after. -/
def splitFirst (c : Char) : List Char → List Char × Option (List Char)
  | [] => ([], none)
  | x :: rest =>
    if x = c then ([], some rest)
    else
      let r := splitFirst c rest
      (x :: r.1, r.2)

/-! ## Field parsers (sources/utils.py) -/

/-- Numeric value of a list of decimal digit characters. -/
def digitsVal (l : List Char) : Nat :=
  l.foldl (fun a c => a * 10 + (c.toNat - 48)) 0

/-- Numeric value of a character list when it is a non-empty digit string
(`String.toNat?` over an explicit character list). -/
def toNatChars (l : List Char) : Option Nat :=
  if l ≠ [] ∧ l.all Char.isDigit then some (digitsVal l) else none

/-- `10 ^ n` as an explicit recursion (kernel-friendly). -/
def pow10 : Nat → Nat
  | 0 => 1
  | n + 1 => 10 * pow10 n

/-- Value of an unsigned decimal literal `intPart.fracPart` as an exact
numerator/denominator pair (the rational is formed at the end with `mkRat`,
which the kernel evaluates; `Rat` arithmetic operations do not reduce). -/
def decimalPair (intPart fracPart : List Char) : Int × Nat :=
  (Int.ofNat (digitsVal intPart * pow10 fracPart.length + digitsVal fracPart),
   pow10 fracPart.length)

/-- Scale a numerator/denominator pair by `10 ^ e` for a signed exponent. -/
def applyExp (p : Int × Nat) : Int → Int × Nat
  | .ofNat n => (p.1 * (pow10 n : Nat), p.2)
  | .negSucc n => (p.1, p.2 * pow10 (n + 1))

/-- Exponent suffix of a Python float literal: optional sign then at least
one digit. -/
def pyFloatExp (l : List Char) : Option Int :=
  match l with
  | '+' :: r => if r ≠ [] ∧ r.all Char.isDigit then some (digitsVal r : Int) else none
  | '-' :: r => if r ≠ [] ∧ r.all Char.isDigit then some (-(digitsVal r : Int)) else none
  | r => if r ≠ [] ∧ r.all Char.isDigit then some (digitsVal r : Int) else none

/-- Unsigned part of a Python float literal: digits with at most one decimal
point (at least one digit overall) and an optional exponent.  Returns the
value as a numerator/denominator pair. -/
def pyFloatUnsigned (l : List Char) : Option (Int × Nat) :=
  let p := l.span Char.isDigit
  match p.2 with
  | [] => if p.1 ≠ [] then some ((digitsVal p.1 : Int), 1) else none
  | '.' :: rest =>
    let q := rest.span Char.isDigit
    if p.1 = [] ∧ q.1 = [] then none
    else
      match q.2 with
      | [] => some (decimalPair p.1 q.1)
      | 'e' :: ex => (pyFloatExp ex).map (applyExp (decimalPair p.1 q.1))
      | 'E' :: ex => (pyFloatExp ex).map (applyExp (decimalPair p.1 q.1))
      | _ => none
  | 'e' :: ex =>
    if p.1 ≠ [] then (pyFloatExp ex).map (applyExp ((digitsVal p.1 : Int), 1)) else none
  | 'E' :: ex =>
    if p.1 ≠ [] then (pyFloatExp ex).map (applyExp ((digitsVal p.1 : Int), 1)) else none
  | _ => none

/-- Model of Python's builtin `float(str)` on decimal literals: surrounding
whitespace, an optional sign, digits with at most one decimal point, an
optional exponent.  Returns `none` exactly when `float` raises `ValueError`.
(Special forms such as `inf`, `nan` and digit-group underscores are not
modelled; no input considered here uses them.) -/
def pyFloat (s : String) : Option ℚ :=
  match pyStrip s.toList with
  | '+' :: rest => (pyFloatUnsigned rest).map (fun p => mkRat p.1 p.2)
  | '-' :: rest => (pyFloatUnsigned rest).map (fun p => mkRat (-p.1) p.2)
  | l => (pyFloatUnsigned l).map (fun p => mkRat p.1 p.2)

/-- Model of Python's builtin `int(str)` on decimal literals: surrounding
whitespace, an optional sign, at least one digit.  Returns `none` exactly
when `int` raises `ValueError`. -/
def pyInt (s : String) : Option Int :=
  match pyStrip s.toList with
  | '+' :: rest => if rest ≠ [] ∧ rest.all Char.isDigit then some (digitsVal rest : Int) else none
  | '-' :: rest => if rest ≠ [] ∧ rest.all Char.isDigit then some (-(digitsVal rest : Int)) else none
  | l => if l ≠ [] ∧ l.all Char.isDigit then some (digitsVal l : Int) else none

/-- utils.py `parse_float`: truthiness guard, strip + drop `%`, try `float`;
on failure strip every character that is not a digit or a decimal point and
retry — the retry is outside any `try`, so its failure raises. -/
def parse_float (value : Option String) : Except PErr (Option ℚ) :=
  match value with
  | none => .ok none
  | some v =>
    if v = "" then .ok none
    else
      let cleaned := String.mk (removeChar '%' (pyStrip v.toList))
      match pyFloat cleaned with
      | some q => .ok (some q)
      | none =>
        let cleaned2 := String.mk (cleaned.toList.filter (fun c => c.isDigit || c == '.'))
        if cleaned2 = "" then .ok none
        else
          match pyFloat cleaned2 with
          | some q => .ok (some q)
          | none => .error .parseError

/-- utils.py `parse_int`: truthiness guard, strip every non-digit, `int` of
the remainder (which cannot fail on a non-empty all-digit string). -/
def parse_int (value : Option String) : Option Int :=
  match value with
  | none => none
  | some v =>
    if v = "" then none
    else
      let cleaned := v.toList.filter Char.isDigit
      if cleaned.isEmpty then none else some (digitsVal cleaned : Int)

/-- Model of `dateutil.parser.parse(s, dayfirst=True).date()` restricted to
purely numeric `D<sep>M<sep>YYYY` dates with separator `-` or `/`: with
`dayfirst=True` the first component is read as the day and the second as the
month; when that makes the month invalid, dateutil falls back to the
month-first reading.  Every other string is a parse error (dateutil raises
`ParserError`, a `ValueError`).  Faithful on the numeric inputs considered
here; dateutil's textual month names, two-digit years and other exotic
formats are outside the model. -/
def dateutilParse (s : String) : Except PErr Date :=
  match splitChars (fun c => c == '-' || c == '/') s.toList with
  | [a, b, y] =>
    match toNatChars a, toNatChars b, toNatChars y with
    | some da, some mo, some yr =>
      if y.length = 4 then
        if 1 ≤ da ∧ da ≤ 31 ∧ 1 ≤ mo ∧ mo ≤ 12 then .ok ⟨yr, mo, da⟩
        else if 1 ≤ da ∧ da ≤ 12 ∧ 1 ≤ mo ∧ mo ≤ 31 then .ok ⟨yr, da, mo⟩
        else .error .parseError
      else .error .parseError
    | _, _, _ => .error .parseError
  | _ => .error .parseError

/-- utils.py `parse_date`: truthiness guard (absent or empty input yields
absent), otherwise `dateutil.parser.parse(value, dayfirst=True).date()` —
whose failure propagates to the caller. -/
def parse_date (value : Option String) : Except PErr (Option Date) :=
  match value with
  | none => .ok none
  | some v => if v = "" then .ok none else (dateutilParse v).map some

/-! ## Source adapters: the deal-table row loops
(sources/screener.py `ScreenerSource.fetch_deals`,
 sources/trendlyne.py `TrendlyneSource.fetch_deals`)

Both `fetch_deals` generators locate one or more deal tables and then run the
same shape of per-row loop.  The embedding models one table's row loop: the
page's `<td>` texts (already `get_text(strip=True)`-extracted, which is part
of the out-of-scope HTML mechanics) are the input.  A generator that raises
mid-iteration has yielded a prefix of its rows; `fetchLoop` therefore returns
the yielded deals together with the error that stopped iteration, if any. -/

/-- One `<tr>` of a Screener deal table: the stripped `<td>` texts, and the
text of the first cell's `<a href=...>` anchor when present. -/
structure SRow where
  cells : List String
  anchor : Option String
deriving DecidableEq, Repr

/-- One `<tr>` of a Trendlyne deal table: the stripped `<td>` texts. -/
structure TRow where
  cells : List String
deriving DecidableEq, Repr

/-- `cells[i].get_text(strip=True) if len(cells) > i else None`. -/
def cellAt (cells : List String) (i : Nat) : Option String :=
  cells.get? i

/-- The lowered side text of a deal row:
`cells[2].get_text(strip=True).lower() if len(cells) > 2 else ""`. -/
def side_text_of (cells : List String) : String :=
  match cellAt cells 2 with
  | some s => pyLower s
  | none => ""

/-- Outcome of processing one row of a deal table: skipped (`continue`),
yielded a `Deal`, or raised. -/
inductive RowStep where
  | skip
  | yield (d : Deal)
  | raise (e : PErr)
deriving DecidableEq, Repr

/-- screener.py lines 97-122, the body of the per-row loop of `fetch_deals`:
skip rows with no cells or no linked first cell; parse the date cell (a
non-empty unparsable date raises out of the generator); skip rows whose
lowered side text is not exactly "buy"/"sell" and rows whose date cell was
absent or empty; then parse quantity and price and yield the `Deal`. -/
def screener_deal_row (investor url deal_type : String) (row : SRow) : RowStep :=
  if row.cells.isEmpty then .skip
  else
    match row.anchor with
    | none => .skip
    | some atext =>
      let ticker := pyUpper atext
      match parse_date (cellAt row.cells 1) with
      | .error e => .raise e
      | .ok deal_date =>
        let side_text := side_text_of row.cells
        if ¬(side_text = "buy" ∨ side_text = "sell") then .skip
        else
          match deal_date with
          | none => .skip
          | some dd =>
            let quantity := parse_int (cellAt row.cells 3)
            match parse_float (cellAt row.cells 4) with
            | .error e => .raise e
            | .ok price =>
              .yield ⟨investor, ticker, url, dd, quantity, price, deal_type, side_text⟩

/-- trendlyne.py lines 104-124, the body of the per-row loop of
`fetch_deals`: same shape as the Screener loop except that the ticker is the
first cell's text (no anchor requirement) and the side/date skip is a single
combined `continue`. -/
def trendlyne_deal_row (investor url deal_type : String) (row : TRow) : RowStep :=
  if row.cells.isEmpty then .skip
  else
    let ticker := pyUpper ((cellAt row.cells 0).getD "")
    match parse_date (cellAt row.cells 1) with
    | .error e => .raise e
    | .ok deal_date =>
      let side_text := side_text_of row.cells
      match deal_date with
      | none => .skip
      | some dd =>
        if ¬(side_text = "buy" ∨ side_text = "sell") then .skip
        else
          let quantity := parse_int (cellAt row.cells 3)
          match parse_float (cellAt row.cells 4) with
          | .error e => .raise e
          | .ok price =>
            .yield ⟨investor, ticker, url, dd, quantity, price, deal_type, side_text⟩

/-- Run a per-row step function over a table's rows the way a Python
generator is consumed: yielded deals accumulate in order; the first raise
ends iteration, keeping the deals yielded before it. -/
def fetchLoop {ρ : Type} (step : ρ → RowStep) : List ρ → List Deal × Option PErr
  | [] => ([], none)
  | row :: rest =>
    match step row with
    | .skip => fetchLoop step rest
    | .yield d =>
      let r := fetchLoop step rest
      (d :: r.1, r.2)
    | .raise e => ([], some e)

/-- `ScreenerSource.fetch_deals` restricted to one deal table. -/
def screener_fetch_deals (investor url deal_type : String) (rows : List SRow) :
    List Deal × Option PErr :=
  fetchLoop (screener_deal_row investor url deal_type) rows

/-- `TrendlyneSource.fetch_deals` restricted to one deal table. -/
def trendlyne_fetch_deals (investor url deal_type : String) (rows : List TRow) :
    List Deal × Option PErr :=
  fetchLoop (trendlyne_deal_row investor url deal_type) rows

/-! ## The relational store (db.py)

Tables become lists of row structures; each table's `SERIAL` primary key
becomes an explicit next-id counter.  The `ON CONFLICT` upserts of db.py act
on the unique columns declared in the schema (`investors.name`,
`stocks.ticker`, `uq_holdings_investor_stock`, `uq_bulk_deal`,
`uq_block_deal`), so a conflict means an existing row with the same value of
those columns.  Timestamp columns are not modelled.  Each SQL statement of
db.py touches exactly one table, so its embedding acts on that table's
rows/sequence pair; the `sync_*` entry points reassemble the whole store. -/

/-- A row of the `investors` table. -/
structure InvestorRow where
  id : Nat
  name : String
  source_url : String
deriving DecidableEq, Repr

/-- A row of the `stocks` table. -/
structure StockRow where
  id : Nat
  ticker : String
deriving DecidableEq, Repr

/-- A row of the `holdings` table. -/
structure HoldingRow where
  id : Nat
  investor_id : Nat
  stock_id : Nat
  percent_holding : Option ℚ
  shares : Option Int
  reported_date : Option Date
deriving DecidableEq, Repr

/-- A row of the `bulk_deals` or `block_deals` table. -/
structure DealRow where
  id : Nat
  investor_id : Nat
  stock_id : Nat
  deal_date : Date
  quantity : Option Int
  price : Option ℚ
deriving DecidableEq, Repr

/-- The singleton `ingest_schedule` row (its id column is fixed to 1). -/
structure ScheduleRow where
  hour : Int
  minute : Int
  timezone : String
deriving DecidableEq, Repr

/-- The `investors` table together with its id sequence. -/
structure InvTable where
  rows : List InvestorRow
  nextId : Nat
deriving DecidableEq, Repr

/-- The `stocks` table together with its id sequence. -/
structure StTable where
  rows : List StockRow
  nextId : Nat
deriving DecidableEq, Repr

/-- The `holdings` table together with its id sequence. -/
structure HoldTable where
  rows : List HoldingRow
  nextId : Nat
deriving DecidableEq, Repr

/-- A deal table (`bulk_deals` or `block_deals`) with its id sequence. -/
structure DealTbl where
  rows : List DealRow
  nextId : Nat
deriving DecidableEq, Repr

/-- The whole relational store. -/
structure DB where
  investors : List InvestorRow
  stocks : List StockRow
  holdings : List HoldingRow
  bulk_deals : List DealRow
  block_deals : List DealRow
  schedule : Option ScheduleRow
  next_investor_id : Nat
  next_stock_id : Nat
  next_holding_id : Nat
  next_bulk_id : Nat
  next_block_id : Nat
deriving DecidableEq, Repr

/-- The empty database (fresh schema). -/
def emptyDB : DB :=
  { investors := [], stocks := [], holdings := [], bulk_deals := [], block_deals := []
    schedule := none, next_investor_id := 0, next_stock_id := 0, next_holding_id := 0
    next_bulk_id := 0, next_block_id := 0 }

/-- The `investors` table of a store. -/
def DB.invTable (db : DB) : InvTable := ⟨db.investors, db.next_investor_id⟩

/-- The `stocks` table of a store. -/
def DB.stTable (db : DB) : StTable := ⟨db.stocks, db.next_stock_id⟩

/-- The `holdings` table of a store. -/
def DB.holdTable (db : DB) : HoldTable := ⟨db.holdings, db.next_holding_id⟩

/-- Write back the `investors` and `stocks` tables after the resolution
loop. -/
def DB.setResolved (db : DB) (inv : InvTable) (st : StTable) : DB :=
  { db with investors := inv.rows, next_investor_id := inv.nextId,
            stocks := st.rows, next_stock_id := st.nextId }

/-- Which physical deal table `_sync_deals` acts on. -/
inductive DealTable where
  | bulk
  | block
deriving DecidableEq, Repr

/-- The given deal table of a store. -/
def DB.dealTable (db : DB) : DealTable → DealTbl
  | .bulk => ⟨db.bulk_deals, db.next_bulk_id⟩
  | .block => ⟨db.block_deals, db.next_block_id⟩

/-- Replace the given deal table of a store. -/
def DB.setDealTable (db : DB) (t : DealTable) (dt : DealTbl) : DB :=
  match t with
  | .bulk => { db with bulk_deals := dt.rows, next_bulk_id := dt.nextId }
  | .block => { db with block_deals := dt.rows, next_block_id := dt.nextId }

/-- db.py `_upsert_investor`: `INSERT .. ON CONFLICT (name) DO UPDATE SET
source_url = excluded.source_url RETURNING id`.  A conflict is an existing
row with the same (unique) name. -/
def _upsert_investor (t : InvTable) (name source_url : String) : InvTable × Nat :=
  match t.rows.find? (fun r => r.name = name) with
  | some r =>
    (⟨t.rows.map (fun x => if x.name = name then { x with source_url := source_url } else x),
      t.nextId⟩, r.id)
  | none =>
    (⟨t.rows ++ [{ id := t.nextId, name, source_url }], t.nextId + 1⟩, t.nextId)

/-- db.py `_upsert_stock`: `INSERT .. ON CONFLICT DO NOTHING RETURNING id`,
falling back to a `SELECT` of the existing id when the insert did nothing. -/
def _upsert_stock (t : StTable) (ticker : String) : StTable × Nat :=
  match t.rows.find? (fun r => r.ticker = ticker) with
  | some r => (t, r.id)
  | none => (⟨t.rows ++ [{ id := t.nextId, ticker }], t.nextId + 1⟩, t.nextId)

/-- Python dict assignment `grouped[key] = value` on an insertion-ordered
association list: replace in place when the key is present, else append. -/
def dictInsert {κ ν : Type} [DecidableEq κ] (g : List (κ × ν)) (k : κ) (v : ν) :
    List (κ × ν) :=
  if g.any (fun p => p.1 = k) then g.map (fun p => if p.1 = k then (k, v) else p)
  else g ++ [(k, v)]

/-- db.py lines 169-175, the first loop of `sync_holdings`: upsert investor
and stock for each record and build the insertion-ordered `grouped` dict
keyed by `(investor_id, stock_id)` (last record for a key wins). -/
def resolve_holdings (inv : InvTable) (st : StTable)
    (grouped : List ((Nat × Nat) × Holding)) :
    List Holding → InvTable × StTable × List ((Nat × Nat) × Holding)
  | [] => (inv, st, grouped)
  | h :: rest =>
    let p1 := _upsert_investor inv h.investor h.source_url
    let p2 := _upsert_stock st h.ticker
    resolve_holdings p1.1 p2.1 (dictInsert grouped (p1.2, p2.2) h) rest

/-- db.py lines 177-194, one iteration of the second loop of
`sync_holdings`: `INSERT .. ON CONFLICT ON CONSTRAINT
uq_holdings_investor_stock DO UPDATE` — update the mutable columns of the
existing row with that key, else insert a fresh row. -/
def upsert_holding_row (t : HoldTable) (investor_id stock_id : Nat) (h : Holding) :
    HoldTable :=
  if t.rows.any (fun r => r.investor_id = investor_id ∧ r.stock_id = stock_id) then
    ⟨t.rows.map (fun r =>
        if r.investor_id = investor_id ∧ r.stock_id = stock_id then
          { r with percent_holding := h.percent_holding, shares := h.shares,
                   reported_date := h.reported_date }
        else r), t.nextId⟩
  else
    ⟨t.rows ++
        [{ id := t.nextId, investor_id, stock_id,
           percent_holding := h.percent_holding, shares := h.shares,
           reported_date := h.reported_date }],
     t.nextId + 1⟩

/-- The second loop of `sync_holdings` over all `grouped` entries. -/
def apply_holdings (t : HoldTable) : List ((Nat × Nat) × Holding) → HoldTable
  | [] => t
  | (k, h) :: rest => apply_holdings (upsert_holding_row t k.1 k.2 h) rest

/-- db.py lines 196-201 of `sync_holdings`: select all holdings rows, list
the ids of those whose `(investor_id, stock_id)` key is not in `to_keep`,
and delete by id. -/
def delete_stale_holdings (rows : List HoldingRow) (to_keep : List (Nat × Nat)) :
    List HoldingRow :=
  let to_remove := (rows.filter
      (fun r => ¬ (r.investor_id, r.stock_id) ∈ to_keep)).map (fun r => r.id)
  rows.filter (fun r => ¬ r.id ∈ to_remove)

/-- db.py `sync_holdings`: resolve + group, upsert every grouped entry, then
delete every row whose key is absent from the grouped key set. -/
def sync_holdings (db : DB) (holdings_data : List Holding) : DB :=
  let r := resolve_holdings db.invTable db.stTable [] holdings_data
  let ht := apply_holdings db.holdTable r.2.2
  { db.setResolved r.1 r.2.1 with
      holdings := delete_stale_holdings ht.rows (r.2.2.map (fun p => p.1)),
      next_holding_id := ht.nextId }

/-- db.py lines 212-216, the first loop of `_sync_deals`: upsert investor and
stock per deal and build the `grouped` dict keyed by
`(investor_id, stock_id, deal_date)`. -/
def resolve_deals (inv : InvTable) (st : StTable)
    (grouped : List ((Nat × Nat × Date) × Deal)) :
    List Deal → InvTable × StTable × List ((Nat × Nat × Date) × Deal)
  | [] => (inv, st, grouped)
  | d :: rest =>
    let p1 := _upsert_investor inv d.investor d.source_url
    let p2 := _upsert_stock st d.ticker
    resolve_deals p1.1 p2.1 (dictInsert grouped (p1.2, p2.2, d.deal_date) d) rest

/-- db.py lines 218-234, one upsert of the second loop of `_sync_deals`: on
conflict with the table's unique `(investor_id, stock_id, deal_date)`
constraint update quantity and price, else insert. -/
def upsert_deal_row (t : DealTbl) (k : Nat × Nat × Date) (d : Deal) : DealTbl :=
  if t.rows.any (fun r => (r.investor_id, r.stock_id, r.deal_date) = k) then
    ⟨t.rows.map (fun r =>
        if (r.investor_id, r.stock_id, r.deal_date) = k then
          { r with quantity := d.quantity, price := d.price }
        else r), t.nextId⟩
  else
    ⟨t.rows ++
        [{ id := t.nextId, investor_id := k.1, stock_id := k.2.1, deal_date := k.2.2,
           quantity := d.quantity, price := d.price }],
     t.nextId + 1⟩

/-- The second loop of `_sync_deals` over all `grouped` entries. -/
def apply_deals (t : DealTbl) : List ((Nat × Nat × Date) × Deal) → DealTbl
  | [] => t
  | (k, d) :: rest => apply_deals (upsert_deal_row t k d) rest

/-- db.py lines 236-245 of `_sync_deals`: delete every row of the table
whose `(investor_id, stock_id, deal_date)` key is not in `to_keep`,
selecting the doomed rows by id first. -/
def delete_stale_deals (rows : List DealRow) (to_keep : List (Nat × Nat × Date)) :
    List DealRow :=
  let to_remove := (rows.filter
      (fun r => ¬ (r.investor_id, r.stock_id, r.deal_date) ∈ to_keep)).map (fun r => r.id)
  rows.filter (fun r => ¬ r.id ∈ to_remove)

/-- db.py `_sync_deals`. -/
def _sync_deals (db : DB) (deals_data : List Deal) (t : DealTable) : DB :=
  let r := resolve_deals db.invTable db.stTable [] deals_data
  let dt := apply_deals (db.dealTable t) r.2.2
  (db.setResolved r.1 r.2.1).setDealTable t
    ⟨delete_stale_deals dt.rows (r.2.2.map (fun p => p.1)), dt.nextId⟩

/-- db.py `sync_bulk_deals`: keep deals with kind "bulk" and side "buy"
(case-insensitively) and synchronize the `bulk_deals` table with them. -/
def sync_bulk_deals (db : DB) (deals_data : List Deal) : DB :=
  _sync_deals db
    (deals_data.filter (fun d => pyLower d.deal_type = "bulk" ∧ pyLower d.side = "buy"))
    .bulk

/-- db.py `sync_block_deals`: keep deals with kind "block" and side "buy"
(case-insensitively) and synchronize the `block_deals` table with them. -/
def sync_block_deals (db : DB) (deals_data : List Deal) : DB :=
  _sync_deals db
    (deals_data.filter (fun d => pyLower d.deal_type = "block" ∧ pyLower d.side = "buy"))
    .block

/-! ## Schedule (db.py `get_or_create_schedule` / `update_schedule`,
app.py `_parse_time` / `update_schedule_view`) -/

/-- db.py `DEFAULT_SCHEDULE`. -/
def DEFAULT_SCHEDULE : ScheduleRow :=
  { hour := 2, minute := 0, timezone := "UTC" }

/-- db.py `get_or_create_schedule`: return the stored singleton row, seeding
the default (02:00 UTC) with an insert-if-absent when there is none. -/
def get_or_create_schedule (db : DB) : DB × ScheduleRow :=
  match db.schedule with
  | some r => (db, r)
  | none => ({ db with schedule := some DEFAULT_SCHEDULE }, DEFAULT_SCHEDULE)

/-- db.py `update_schedule`: `INSERT .. ON CONFLICT (id) DO UPDATE` of the
singleton row — a full replace of hour, minute and timezone.  No validation
is performed here; the timezone parameter defaults to "UTC". -/
def update_schedule (db : DB) (hour minute : Int) (timezone : String := "UTC") :
    DB × ScheduleRow :=
  ({ db with schedule := some { hour, minute, timezone } },
   { hour, minute, timezone })

/-- app.py `_parse_time`: strip, require a ":", split at the first ":",
`int()` both parts (raising `ValueError` on non-numeric text), and check
0 ≤ hour ≤ 23 and 0 ≤ minute ≤ 59. -/
def _parse_time (value : String) : Except String (Int × Int) :=
  let v := pyStrip value.toList
  if v = [] ∨ (splitFirst ':' v).2 = none then .error "Time must be in HH:MM format"
  else
    let parts := splitFirst ':' v
    let hour_str := String.mk parts.1
    let minute_str := String.mk (parts.2.getD [])
    match pyInt hour_str, pyInt minute_str with
    | some hour, some minute =>
      if ¬(0 ≤ hour ∧ hour ≤ 23 ∧ 0 ≤ minute ∧ minute ≤ 59) then
        .error "Hours must be 0-23 and minutes 0-59"
      else .ok (hour, minute)
    | _, _ => .error "invalid literal for int"

/-- Outcome of the `POST /schedule` view: a 400 with an error message, or a
303 redirect after a successful update. -/
inductive ViewResult where
  | badRequest (error : String)
  | redirect
deriving DecidableEq, Repr

/-- app.py `update_schedule_view` (without the HTML rendering): parse and
validate the submitted time — on `ValueError` re-read the schedule (which may
seed the default) and answer 400 without updating; otherwise persist via
`update_schedule` (no timezone argument) and redirect. -/
def update_schedule_view (db : DB) (time : String) : DB × ViewResult :=
  match _parse_time time with
  | .error e => ((get_or_create_schedule db).1, .badRequest e)
  | .ok (hour, minute) => ((update_schedule db hour minute).1, .redirect)

/-! ## The runner (runner.py `gather_data`) -/

/-- What one configured investor's adapter produces when consumed:
the holdings and deals its generators yield before finishing or raising,
and whether each generator raised.  (`fetch_holdings` is consumed before
`fetch_deals`; an exception in either aborts the rest of that investor's
contribution only.) -/
structure SourceData where
  holdingsYielded : List Holding
  holdingsRaises : Bool
  dealsYielded : List Deal
  dealsRaises : Bool
deriving DecidableEq, Repr

/-- runner.py `gather_data`: extend the shared holdings list with each
source's holdings, then (only if that did not raise) extend the shared deals
list with its deals; a raising source keeps what it yielded before the
exception and its failure does not abort other sources. -/
def gather_data (sources : List SourceData) : List Holding × List Deal :=
  sources.foldl
    (fun acc s =>
      let hs := acc.1 ++ s.holdingsYielded
      if s.holdingsRaises then (hs, acc.2)
      else (hs, acc.2 ++ s.dealsYielded))
    ([], [])

/-! ## Well-formedness invariants and key lookups

The schema of db.py declares `investors.name` and `stocks.ticker` unique,
`holdings` unique on `(investor_id, stock_id)`, and every `id` a primary key
drawn from a sequence.  `WF` captures exactly these schema invariants for a
store state. -/

/-- The reconciliation key of a holdings row. -/
def holdingKey (r : HoldingRow) : Nat × Nat :=
  (r.investor_id, r.stock_id)

/-- The reconciliation key of a deal row. -/
def dealKey (r : DealRow) : Nat × Nat × Date :=
  (r.investor_id, r.stock_id, r.deal_date)

/-- Resolve an investor name to the id of its (unique) row, as the SQL
`SELECT id FROM investors WHERE name = ...` would. -/
def invId (t : InvTable) (name : String) : Option Nat :=
  (t.rows.find? (fun r => r.name = name)).map (fun r => r.id)

/-- Resolve a ticker to the id of its (unique) stocks row. -/
def stId (t : StTable) (ticker : String) : Option Nat :=
  (t.rows.find? (fun r => r.ticker = ticker)).map (fun r => r.id)

/-- Schema invariants of the `investors` table: primary keys distinct and
below the sequence value, names unique. -/
def InvTable.WF (t : InvTable) : Prop :=
  t.rows.Pairwise (fun a b => a.id ≠ b.id) ∧
  t.rows.Pairwise (fun a b => a.name ≠ b.name) ∧
  ∀ r ∈ t.rows, r.id < t.nextId

/-- Schema invariants of the `stocks` table. -/
def StTable.WF (t : StTable) : Prop :=
  t.rows.Pairwise (fun a b => a.id ≠ b.id) ∧
  t.rows.Pairwise (fun a b => a.ticker ≠ b.ticker) ∧
  ∀ r ∈ t.rows, r.id < t.nextId

/-- Schema invariants of the `holdings` table: primary keys distinct and
below the sequence value, `(investor_id, stock_id)` unique. -/
def HoldTable.WF (t : HoldTable) : Prop :=
  t.rows.Pairwise (fun a b => a.id ≠ b.id) ∧
  t.rows.Pairwise (fun a b => holdingKey a ≠ holdingKey b) ∧
  ∀ r ∈ t.rows, r.id < t.nextId

/-- Schema invariants of a deal table: primary keys distinct and below the
sequence value, `(investor_id, stock_id, deal_date)` unique. -/
def DealTbl.WF (t : DealTbl) : Prop :=
  t.rows.Pairwise (fun a b => a.id ≠ b.id) ∧
  t.rows.Pairwise (fun a b => dealKey a ≠ dealKey b) ∧
  ∀ r ∈ t.rows, r.id < t.nextId

/-- Schema invariants of the whole store. -/
def DB.WF (db : DB) : Prop :=
  db.invTable.WF ∧ db.stTable.WF ∧ db.holdTable.WF ∧
  (db.dealTable .bulk).WF ∧ (db.dealTable .block).WF

instance (t : InvTable) : Decidable t.WF := by
  unfold InvTable.WF
  infer_instance

instance (t : StTable) : Decidable t.WF := by
  unfold StTable.WF
  infer_instance

instance (t : HoldTable) : Decidable t.WF := by
  unfold HoldTable.WF
  infer_instance

instance (t : DealTbl) : Decidable t.WF := by
  unfold DealTbl.WF
  infer_instance

instance (db : DB) : Decidable db.WF := by
  unfold DB.WF
  infer_instance

/-- Look up the value stored under a key in an association list (first
match, as a Python dict read). -/
def lookupKey {κ ν : Type} [DecidableEq κ] (g : List (κ × ν)) (k : κ) : Option ν :=
  (g.find? (fun p => p.1 = k)).map (fun p => p.2)

/-- The grouped-dict construction of both `sync_holdings` and `_sync_deals`,
abstracted over the key function: fold `dictInsert` over the records. -/
def groupBy {κ α : Type} [DecidableEq κ] (key : α → κ) (g : List (κ × α)) :
    List α → List (κ × α)
  | [] => g
  | x :: rest => groupBy key (dictInsert g (key x) x) rest

/-- The `(investor_id, stock_id)` key a holding record resolves to against
given investor/stock tables. -/
def keyAtH (inv : InvTable) (st : StTable) (h : Holding) : Nat × Nat :=
  ((invId inv h.investor).getD 0, (stId st h.ticker).getD 0)

/-- The mutable columns of a holdings row. -/
def valsH (r : HoldingRow) : Option ℚ × Option Int × Option Date :=
  (r.percent_holding, r.shares, r.reported_date)

/-- The columns a holding record writes into those fields. -/
def valsOfHolding (h : Holding) : Option ℚ × Option Int × Option Date :=
  (h.percent_holding, h.shares, h.reported_date)

/-- The mutable columns of a deal row. -/
def valsD (r : DealRow) : Option Int × Option ℚ :=
  (r.quantity, r.price)

/-- The columns a deal record writes into those fields. -/
def valsOfDeal (d : Deal) : Option Int × Option ℚ :=
  (d.quantity, d.price)

/-! ## Generic list and dict lemmas -/

/-- In a list whose members have pairwise distinct images under `f`, a member
is determined by its image. -/
theorem mem_eq_of_pairwise_inj {α β : Type} {f : α → β} {l : List α}
    (hp : l.Pairwise (fun a b => f a ≠ f b)) {a b : α}
    (ha : a ∈ l) (hb : b ∈ l) (hf : f a = f b) : a = b := by
  induction l with
  | nil => cases ha
  | cons x xs ih =>
    rcases List.mem_cons.1 ha with rfl | ha1
    · rcases List.mem_cons.1 hb with rfl | hb1
      · rfl
      · exact absurd hf ((List.pairwise_cons.1 hp).1 _ hb1)
    · rcases List.mem_cons.1 hb with rfl | hb1
      · exact absurd hf.symm ((List.pairwise_cons.1 hp).1 _ ha1)
      · exact ih (List.pairwise_cons.1 hp).2 ha1 hb1

/-- The replacement function of `dictInsert` preserves the key of every
entry. -/
theorem dictInsert_replace_fst {κ ν : Type} [DecidableEq κ] (k : κ) (v : ν)
    (p : κ × ν) : ((if p.1 = k then (k, v) else p) : κ × ν).1 = p.1 := by
  by_cases h : p.1 = k <;> simp [h]

/-- Membership in a dict after assignment. -/
theorem mem_dictInsert {κ ν : Type} [DecidableEq κ] {g : List (κ × ν)} {k k' : κ}
    {v v' : ν} (h : (k', v') ∈ dictInsert g k v) :
    (k', v') ∈ g ∨ (k' = k ∧ v' = v) := by
  unfold dictInsert at h
  split at h
  · rcases List.mem_map.1 h with ⟨p, hp, he⟩
    by_cases hk : p.1 = k
    · rw [if_pos hk] at he
      right
      exact ⟨congrArg Prod.fst he.symm, congrArg Prod.snd he.symm⟩
    · rw [if_neg hk] at he
      left
      rwa [he] at hp
  · rcases List.mem_append.1 h with h1 | h1
    · exact Or.inl h1
    · simp at h1
      exact Or.inr ⟨h1.1, h1.2⟩

/-- Key-set membership in a dict after assignment. -/
theorem keys_dictInsert {κ ν : Type} [DecidableEq κ] (g : List (κ × ν)) (k k' : κ)
    (v : ν) :
    k' ∈ (dictInsert g k v).map Prod.fst ↔ k' ∈ g.map Prod.fst ∨ k' = k := by
  unfold dictInsert
  split <;> rename_i hany
  · have hmap : (g.map (fun p => if p.1 = k then (k, v) else p)).map Prod.fst
        = g.map Prod.fst := by
      rw [List.map_map]
      exact List.map_congr_left (fun p _ => dictInsert_replace_fst k v p)
    rw [hmap]
    constructor
    · exact Or.inl
    · rintro (h1 | rfl)
      · exact h1
      · rcases List.any_eq_true.1 hany with ⟨p, hp, he⟩
        simp only [decide_eq_true_eq] at he
        exact List.mem_map.2 ⟨p, hp, he⟩
  · rw [List.map_append, List.mem_append]
    simp

/-- Assignment preserves distinctness of dict keys. -/
theorem pairwise_dictInsert {κ ν : Type} [DecidableEq κ] {g : List (κ × ν)} (k : κ)
    (v : ν) (hp : g.Pairwise (fun p q => p.1 ≠ q.1)) :
    (dictInsert g k v).Pairwise (fun p q => p.1 ≠ q.1) := by
  unfold dictInsert
  split <;> rename_i hany
  · rw [List.pairwise_map]
    refine hp.imp_of_mem ?_
    intro p q _ _ hpq
    rw [dictInsert_replace_fst, dictInsert_replace_fst]
    exact hpq
  · rw [List.pairwise_append]
    refine ⟨hp, List.pairwise_singleton _ _, ?_⟩
    intro p hpg q hq
    simp only [List.mem_singleton] at hq
    subst hq
    intro he
    exact hany (List.any_eq_true.2 ⟨p, hpg, by simp [he]⟩)

/-- Reading a dict key after an assignment. -/
theorem lookupKey_dictInsert {κ ν : Type} [DecidableEq κ] (g : List (κ × ν))
    (k k' : κ) (v : ν) :
    lookupKey (dictInsert g k v) k' = if k' = k then some v else lookupKey g k' := by
  unfold dictInsert lookupKey
  split <;> rename_i hany
  · rw [List.find?_map]
    have hpred : ((fun p => decide (p.1 = k')) ∘ fun p => if p.1 = k then (k, v) else p)
        = fun p : κ × ν => decide (p.1 = k') := by
      funext p
      simp only [Function.comp_apply]
      rw [dictInsert_replace_fst]
    rw [hpred]
    by_cases hk : k' = k
    · subst hk
      rcases List.any_eq_true.1 hany with ⟨p0, hp0, he0⟩
      simp only [decide_eq_true_eq] at he0
      have hsome : (g.find? (fun p => p.1 = k')).isSome := by
        rw [List.find?_isSome]
        exact ⟨p0, hp0, by simp [he0]⟩
      rcases Option.isSome_iff_exists.1 hsome with ⟨p1, hp1⟩
      have := List.find?_some hp1
      simp only [decide_eq_true_eq] at this
      rw [hp1, if_pos rfl]
      simp [Option.map_map, this]
    · rw [if_neg hk]
      cases hf : g.find? (fun p => p.1 = k') with
      | none => simp
      | some p1 =>
        have hp1 := List.find?_some hf
        simp only [decide_eq_true_eq] at hp1
        have hne : p1.1 ≠ k := by rw [hp1]; exact hk
        simp [hne]
  · rw [List.find?_append]
    have hno : ∀ p ∈ g, p.1 ≠ k := fun p hpg he =>
      hany (List.any_eq_true.2 ⟨p, hpg, by simp [he]⟩)
    by_cases hk : k' = k
    · subst hk
      have hnone : g.find? (fun p => p.1 = k') = none := by
        rw [List.find?_eq_none]
        intro p hp
        simp only [decide_eq_true_eq]
        exact hno p hp
      rw [hnone]
      simp [List.find?]
    · have hone : List.find? (fun p => decide (p.1 = k')) [(k, v)] = none := by
        simp only [List.find?]
        rw [show (decide (((k, v) : κ × ν).1 = k')) = false by
          simp only [decide_eq_false_iff_not]
          exact fun h => hk h.symm]
      rw [hone]
      cases hf : g.find? (fun p => decide (p.1 = k')) with
      | none => simp [hk]
      | some p1 => simp [hk]

/-- Key-set membership of a grouped dict. -/
theorem groupBy_keys {κ α : Type} [DecidableEq κ] (key : α → κ) (g : List (κ × α))
    (xs : List α) (k : κ) :
    k ∈ (groupBy key g xs).map Prod.fst ↔
      k ∈ g.map Prod.fst ∨ ∃ x ∈ xs, key x = k := by
  induction xs generalizing g with
  | nil => simp [groupBy]
  | cons x rest ih =>
    rw [groupBy, ih, keys_dictInsert]
    simp only [List.mem_cons]
    constructor
    · rintro ((h | rfl) | ⟨y, hy, hk⟩)
      · exact Or.inl h
      · exact Or.inr ⟨x, Or.inl rfl, rfl⟩
      · exact Or.inr ⟨y, Or.inr hy, hk⟩
    · rintro (h | ⟨y, rfl | hy, hk⟩)
      · exact Or.inl (Or.inl h)
      · exact Or.inl (Or.inr hk.symm)
      · exact Or.inr ⟨y, hy, hk⟩

/-- Every entry of a grouped dict is an initial entry or comes from a
record of the batch, stored under that record's key. -/
theorem groupBy_mem {κ α : Type} [DecidableEq κ] {key : α → κ} {g : List (κ × α)}
    {xs : List α} {k : κ} {v : α} (h : (k, v) ∈ groupBy key g xs) :
    (k, v) ∈ g ∨ (v ∈ xs ∧ key v = k) := by
  induction xs generalizing g with
  | nil => exact Or.inl h
  | cons x rest ih =>
    rcases ih h with h1 | ⟨hv, hk⟩
    · rcases mem_dictInsert h1 with h2 | ⟨rfl, rfl⟩
      · exact Or.inl h2
      · exact Or.inr ⟨List.mem_cons_self _ _, rfl⟩
    · exact Or.inr ⟨List.mem_cons_of_mem _ hv, hk⟩

/-- Grouping preserves distinctness of dict keys. -/
theorem groupBy_pairwise {κ α : Type} [DecidableEq κ] (key : α → κ)
    {g : List (κ × α)} (xs : List α) (hp : g.Pairwise (fun p q => p.1 ≠ q.1)) :
    (groupBy key g xs).Pairwise (fun p q => p.1 ≠ q.1) := by
  induction xs generalizing g with
  | nil => exact hp
  | cons x rest ih => exact ih (pairwise_dictInsert _ _ hp)

/-- Reading a grouped dict: the last batch record with the key wins, and the
initial dict answers for keys no record has. -/
theorem lookupKey_groupBy {κ α : Type} [DecidableEq κ] (key : α → κ)
    (g : List (κ × α)) (xs : List α) (k : κ) :
    lookupKey (groupBy key g xs) k =
      match xs.reverse.find? (fun x => key x = k) with
      | some x => some x
      | none => lookupKey g k := by
  induction xs generalizing g with
  | nil => simp [groupBy]
  | cons x rest ih =>
    rw [groupBy, ih, List.reverse_cons, List.find?_append]
    cases hf : rest.reverse.find? (fun y => key y = k) with
    | some y => simp
    | none =>
      rw [lookupKey_dictInsert]
      by_cases hxk : key x = k
      · simp [List.find?, hxk]
      · rw [if_neg (fun h => hxk h.symm)]
        have hxnone : List.find? (fun y => decide (key y = k)) [x] = none := by
          simp only [List.find?]
          rw [show (decide (key x = k)) = false by simp [hxk]]
        simp [hxnone]

/-- In a dict with distinct keys, membership determines the lookup. -/
theorem lookupKey_eq_some_of_mem {κ ν : Type} [DecidableEq κ] {g : List (κ × ν)}
    (hp : g.Pairwise (fun p q => p.1 ≠ q.1)) {k : κ} {v : ν} (h : (k, v) ∈ g) :
    lookupKey g k = some v := by
  induction g with
  | nil => cases h
  | cons p rest ih =>
    rcases List.mem_cons.1 h with rfl | hmem
    · simp [lookupKey, List.find?]
    · have hne : p.1 ≠ k :=
        fun he => (List.pairwise_cons.1 hp).1 _ hmem (by simp [he])
      have hrec := ih (List.pairwise_cons.1 hp).2 hmem
      unfold lookupKey
      rw [List.find?_cons_of_neg _ (by simp [hne])]
      exact hrec

/-- A successful dict lookup produces a member entry. -/
theorem mem_of_lookupKey_eq_some {κ ν : Type} [DecidableEq κ] {g : List (κ × ν)}
    {k : κ} {v : ν} (h : lookupKey g k = some v) : (k, v) ∈ g := by
  unfold lookupKey at h
  cases hf : g.find? (fun p => p.1 = k) with
  | none => rw [hf] at h; cases h
  | some p1 =>
    rw [hf] at h
    have hm := List.mem_of_find?_eq_some hf
    have hk := List.find?_some hf
    simp only [decide_eq_true_eq] at hk
    have hv : p1.2 = v := by simpa using h
    rw [← hk, ← hv]
    exact hm

/-! ## Lemmas about the investor/stock upserts -/

/-- The conflict-update of `_upsert_investor` only touches `source_url`. -/
theorem upsert_investor_update_keeps (n u : String) (x : InvestorRow) :
    (if x.name = n then { x with source_url := u } else x).name = x.name ∧
    (if x.name = n then { x with source_url := u } else x).id = x.id := by
  by_cases hx : x.name = n <;> simp [hx]

/-- How `_upsert_investor` changes name resolution: the upserted name maps to
the returned id, every other name resolves as before. -/
theorem upsert_investor_invId (t : InvTable) (n u m : String) :
    invId (_upsert_investor t n u).1 m =
      if m = n then some (_upsert_investor t n u).2 else invId t m := by
  unfold _upsert_investor invId
  cases hf : t.rows.find? (fun r => r.name = n) with
  | some r =>
    simp only
    rw [List.find?_map]
    have hpred : ((fun x : InvestorRow => decide (x.name = m)) ∘
        (fun x => if x.name = n then { x with source_url := u } else x))
        = fun x : InvestorRow => decide (x.name = m) := by
      funext x
      simp only [Function.comp_apply]
      rw [(upsert_investor_update_keeps n u x).1]
    rw [hpred]
    by_cases hm : m = n
    · subst hm
      rw [hf, if_pos rfl]
      have hr := List.find?_some hf
      simp only [decide_eq_true_eq] at hr
      simp [hr]
    · rw [if_neg hm]
      cases hg : t.rows.find? (fun x => decide (x.name = m)) with
      | none => simp
      | some x =>
        have hx := List.find?_some hg
        simp only [decide_eq_true_eq] at hx
        have hxn : ¬ x.name = n := by rw [hx]; exact hm
        simp [hxn]
  | none =>
    simp only
    rw [List.find?_append]
    by_cases hm : m = n
    · subst hm
      rw [hf]
      simp [List.find?]
    · rw [if_neg hm]
      have hone : List.find?
          (fun r : InvestorRow => decide (r.name = m))
          [{ id := t.nextId, name := n, source_url := u }] = none := by
        simp only [List.find?]
        rw [show (decide (({ id := t.nextId, name := n, source_url := u }
          : InvestorRow).name = m)) = false by simp; exact fun hh => hm hh.symm]
      rw [hone]
      cases hg : t.rows.find? (fun r : InvestorRow => decide (r.name = m)) <;> simp

/-- When the upserted name already resolves, the upsert returns that id. -/
theorem upsert_investor_ret {t : InvTable} {n : String} {j : Nat} (u : String)
    (h : invId t n = some j) : (_upsert_investor t n u).2 = j := by
  unfold invId at h
  unfold _upsert_investor
  cases hf : t.rows.find? (fun r => r.name = n) with
  | some r => rw [hf] at h; simp at h; simp [h]
  | none => rw [hf] at h; cases h

/-- `_upsert_investor` preserves the schema invariants. -/
theorem upsert_investor_WF {t : InvTable} (n u : String) (h : t.WF) :
    (_upsert_investor t n u).1.WF := by
  obtain ⟨hid, hname, hlt⟩ := h
  unfold _upsert_investor
  cases hf : t.rows.find? (fun r => r.name = n) with
  | some r =>
    refine ⟨?_, ?_, ?_⟩
    · rw [List.pairwise_map]
      refine hid.imp_of_mem ?_
      intro a b _ _ hab
      rw [(upsert_investor_update_keeps n u a).2, (upsert_investor_update_keeps n u b).2]
      exact hab
    · rw [List.pairwise_map]
      refine hname.imp_of_mem ?_
      intro a b _ _ hab
      rw [(upsert_investor_update_keeps n u a).1, (upsert_investor_update_keeps n u b).1]
      exact hab
    · intro x hx
      rcases List.mem_map.1 hx with ⟨a, ha, rfl⟩
      rw [(upsert_investor_update_keeps n u a).2]
      exact hlt a ha
  | none =>
    have hno : ∀ r ∈ t.rows, r.name ≠ n := by
      intro r hr
      have := List.find?_eq_none.1 hf r hr
      simpa using this
    refine ⟨?_, ?_, ?_⟩
    · rw [List.pairwise_append]
      refine ⟨hid, List.pairwise_singleton _ _, ?_⟩
      intro a ha b hb
      simp only [List.mem_singleton] at hb
      subst hb
      exact Nat.ne_of_lt (hlt a ha)
    · rw [List.pairwise_append]
      refine ⟨hname, List.pairwise_singleton _ _, ?_⟩
      intro a ha b hb
      simp only [List.mem_singleton] at hb
      subst hb
      exact hno a ha
    · intro x hx
      rcases List.mem_append.1 hx with hx1 | hx1
      · exact Nat.lt_succ_of_lt (hlt x hx1)
      · simp only [List.mem_singleton] at hx1
        subst hx1
        exact Nat.lt_succ_self _

/-- How `_upsert_stock` changes ticker resolution. -/
theorem upsert_stock_stId (t : StTable) (tk m : String) :
    stId (_upsert_stock t tk).1 m =
      if m = tk then some (_upsert_stock t tk).2 else stId t m := by
  unfold _upsert_stock stId
  cases hf : t.rows.find? (fun r => r.ticker = tk) with
  | some r =>
    simp only
    by_cases hm : m = tk
    · subst hm
      rw [hf, if_pos rfl]
      have hr := List.find?_some hf
      simp only [decide_eq_true_eq] at hr
      simp [invId, stId, hf]
    · rw [if_neg hm]
  | none =>
    simp only
    rw [List.find?_append]
    by_cases hm : m = tk
    · subst hm
      rw [hf]
      simp [List.find?]
    · rw [if_neg hm]
      have hone : List.find? (fun r : StockRow => decide (r.ticker = m))
          [{ id := t.nextId, ticker := tk }] = none := by
        simp only [List.find?]
        rw [show (decide (({ id := t.nextId, ticker := tk } : StockRow).ticker = m))
          = false by simp; exact fun hh => hm hh.symm]
      rw [hone]
      cases hg : t.rows.find? (fun r : StockRow => decide (r.ticker = m)) <;> simp

/-- When the upserted ticker already resolves, the upsert returns that id. -/
theorem upsert_stock_ret {t : StTable} {tk : String} {j : Nat}
    (h : stId t tk = some j) : (_upsert_stock t tk).2 = j := by
  unfold stId at h
  unfold _upsert_stock
  cases hf : t.rows.find? (fun r => r.ticker = tk) with
  | some r => rw [hf] at h; simp at h; simp [h]
  | none => rw [hf] at h; cases h

/-- A found `_upsert_stock` leaves the table untouched. -/
theorem upsert_stock_found {t : StTable} {tk : String}
    (h : (stId t tk).isSome) : (_upsert_stock t tk).1 = t := by
  unfold stId at h
  unfold _upsert_stock
  cases hf : t.rows.find? (fun r => r.ticker = tk) with
  | some r => simp
  | none => rw [hf] at h; simp at h

/-- `_upsert_stock` preserves the schema invariants. -/
theorem upsert_stock_WF {t : StTable} (tk : String) (h : t.WF) :
    (_upsert_stock t tk).1.WF := by
  obtain ⟨hid, htick, hlt⟩ := h
  unfold _upsert_stock
  cases hf : t.rows.find? (fun r => r.ticker = tk) with
  | some r => exact ⟨hid, htick, hlt⟩
  | none =>
    have hno : ∀ r ∈ t.rows, r.ticker ≠ tk := by
      intro r hr
      have := List.find?_eq_none.1 hf r hr
      simpa using this
    refine ⟨?_, ?_, ?_⟩
    · rw [List.pairwise_append]
      refine ⟨hid, List.pairwise_singleton _ _, ?_⟩
      intro a ha b hb
      simp only [List.mem_singleton] at hb
      subst hb
      exact Nat.ne_of_lt (hlt a ha)
    · rw [List.pairwise_append]
      refine ⟨htick, List.pairwise_singleton _ _, ?_⟩
      intro a ha b hb
      simp only [List.mem_singleton] at hb
      subst hb
      exact hno a ha
    · intro x hx
      rcases List.mem_append.1 hx with hx1 | hx1
      · exact Nat.lt_succ_of_lt (hlt x hx1)
      · simp only [List.mem_singleton] at hx1
        subst hx1
        exact Nat.lt_succ_self _

/-- A found `_upsert_investor` leaves name resolution untouched for every
name (ids and names are preserved; only a source_url changes). -/
theorem upsert_investor_found {t : InvTable} {n : String} (u : String)
    (h : (invId t n).isSome) (m : String) :
    invId (_upsert_investor t n u).1 m = invId t m := by
  rw [upsert_investor_invId]
  by_cases hm : m = n
  · subst hm
    rcases Option.isSome_iff_exists.1 h with ⟨j, hj⟩
    rw [if_pos rfl, upsert_investor_ret u hj, hj]
  · rw [if_neg hm]

/-- Stability of name resolution under any investor upsert. -/
theorem upsert_investor_stable {t : InvTable} {m : String} {j : Nat}
    (n u : String) (h : invId t m = some j) :
    invId (_upsert_investor t n u).1 m = some j := by
  rw [upsert_investor_invId]
  by_cases hm : m = n
  · subst hm
    rw [if_pos rfl, upsert_investor_ret u h]
  · rw [if_neg hm]
    exact h

/-- Stability of ticker resolution under any stock upsert. -/
theorem upsert_stock_stable {t : StTable} {m : String} {j : Nat}
    (tk : String) (h : stId t m = some j) :
    stId (_upsert_stock t tk).1 m = some j := by
  rw [upsert_stock_stId]
  by_cases hm : m = tk
  · subst hm
    rw [if_pos rfl, upsert_stock_ret h]
  · rw [if_neg hm]
    exact h

/-! ## The resolution loop of sync_holdings -/

/-- Characterization of the resolution loop of `sync_holdings`: the
invariants are preserved, resolution of already-present names/tickers is
stable, every batch record's name and ticker resolve afterwards, and the
grouped dict is the `groupBy` of the batch under final resolution. -/
theorem resolve_holdings_spec :
    ∀ (hs : List Holding) (inv : InvTable) (st : StTable)
      (g : List ((Nat × Nat) × Holding)), inv.WF → st.WF →
    (resolve_holdings inv st g hs).1.WF ∧
    (resolve_holdings inv st g hs).2.1.WF ∧
    (∀ m j, invId inv m = some j →
      invId (resolve_holdings inv st g hs).1 m = some j) ∧
    (∀ m j, stId st m = some j →
      stId (resolve_holdings inv st g hs).2.1 m = some j) ∧
    (∀ h ∈ hs, (invId (resolve_holdings inv st g hs).1 h.investor).isSome ∧
      (stId (resolve_holdings inv st g hs).2.1 h.ticker).isSome) ∧
    (resolve_holdings inv st g hs).2.2 =
      groupBy (keyAtH (resolve_holdings inv st g hs).1
        (resolve_holdings inv st g hs).2.1) g hs := by
  intro hs
  induction hs with
  | nil =>
    intro inv st g hwi hws
    exact ⟨hwi, hws, fun m j h => h, fun m j h => h, by simp, rfl⟩
  | cons h rest ih =>
    intro inv st g hwi hws
    rw [show resolve_holdings inv st g (h :: rest)
      = resolve_holdings (_upsert_investor inv h.investor h.source_url).1
          (_upsert_stock st h.ticker).1
          (dictInsert g
            ((_upsert_investor inv h.investor h.source_url).2,
             (_upsert_stock st h.ticker).2) h)
          rest from rfl]
    obtain ⟨hwf1, hwf2, hstab1, hstab2, hmem, hgr⟩ :=
      ih (_upsert_investor inv h.investor h.source_url).1 (_upsert_stock st h.ticker).1
        (dictInsert g
          ((_upsert_investor inv h.investor h.source_url).2,
           (_upsert_stock st h.ticker).2) h)
        (upsert_investor_WF _ _ hwi) (upsert_stock_WF _ hws)
    have hinv0 : invId (_upsert_investor inv h.investor h.source_url).1 h.investor
        = some (_upsert_investor inv h.investor h.source_url).2 := by
      rw [upsert_investor_invId, if_pos rfl]
    have hst0 : stId (_upsert_stock st h.ticker).1 h.ticker
        = some (_upsert_stock st h.ticker).2 := by
      rw [upsert_stock_stId, if_pos rfl]
    have hinv1 := hstab1 _ _ hinv0
    have hst1 := hstab2 _ _ hst0
    refine ⟨hwf1, hwf2, ?_, ?_, ?_, ?_⟩
    · intro m j hm
      exact hstab1 m j (upsert_investor_stable _ _ hm)
    · intro m j hm
      exact hstab2 m j (upsert_stock_stable _ hm)
    · intro x hx
      rcases List.mem_cons.1 hx with rfl | hx1
      · exact ⟨by rw [hinv1]; rfl, by rw [hst1]; rfl⟩
      · exact hmem x hx1
    · rw [hgr, groupBy]
      have hkey : keyAtH (resolve_holdings (_upsert_investor inv h.investor h.source_url).1
            (_upsert_stock st h.ticker).1
            (dictInsert g
              ((_upsert_investor inv h.investor h.source_url).2,
               (_upsert_stock st h.ticker).2) h) rest).1
          (resolve_holdings (_upsert_investor inv h.investor h.source_url).1
            (_upsert_stock st h.ticker).1
            (dictInsert g
              ((_upsert_investor inv h.investor h.source_url).2,
               (_upsert_stock st h.ticker).2) h) rest).2.1 h
          = ((_upsert_investor inv h.investor h.source_url).2,
             (_upsert_stock st h.ticker).2) := by
        unfold keyAtH
        rw [hinv1, hst1]
        rfl
      rw [hkey]

/-! ## The upsert loop of sync_holdings -/

/-- After one holdings upsert every row with the upserted key carries the
record's values. -/
theorem upsert_holding_row_vals (t : HoldTable) (k1 k2 : Nat) (h : Holding) :
    ∀ r ∈ (upsert_holding_row t k1 k2 h).rows, holdingKey r = (k1, k2) →
      valsH r = valsOfHolding h := by
  unfold upsert_holding_row
  split <;> rename_i hany
  · intro r hr hkey
    rcases List.mem_map.1 hr with ⟨x, hx, rfl⟩
    by_cases hxk : x.investor_id = k1 ∧ x.stock_id = k2
    · rw [if_pos hxk]
      rfl
    · rw [if_neg hxk] at hkey ⊢
      exact absurd ⟨congrArg Prod.fst hkey, congrArg Prod.snd hkey⟩ hxk
  · have hno : ∀ r ∈ t.rows, ¬(r.investor_id = k1 ∧ r.stock_id = k2) := by
      intro r hr hc
      exact hany (List.any_eq_true.2 ⟨r, hr, by simp [hc.1, hc.2]⟩)
    intro r hr hkey
    rcases List.mem_append.1 hr with hr1 | hr1
    · exact absurd ⟨congrArg Prod.fst hkey, congrArg Prod.snd hkey⟩ (hno r hr1)
    · simp only [List.mem_singleton] at hr1
      subst hr1
      rfl

/-- After one holdings upsert a row with the upserted key exists. -/
theorem upsert_holding_row_exists (t : HoldTable) (k1 k2 : Nat) (h : Holding) :
    ∃ r ∈ (upsert_holding_row t k1 k2 h).rows, holdingKey r = (k1, k2) := by
  unfold upsert_holding_row
  split <;> rename_i hany
  · rcases List.any_eq_true.1 hany with ⟨x, hx, hxk⟩
    simp only [decide_eq_true_eq] at hxk
    refine ⟨_, List.mem_map_of_mem _ hx, ?_⟩
    rw [if_pos hxk]
    simp [holdingKey, hxk.1, hxk.2]
  · exact ⟨_, List.mem_append.2 (Or.inr (List.mem_singleton.2 rfl)), rfl⟩

/-- Every row after one holdings upsert has the upserted key or was already
present. -/
theorem upsert_holding_row_src (t : HoldTable) (k1 k2 : Nat) (h : Holding) :
    ∀ r ∈ (upsert_holding_row t k1 k2 h).rows,
      holdingKey r = (k1, k2) ∨ r ∈ t.rows := by
  unfold upsert_holding_row
  split <;> rename_i hany
  · intro r hr
    rcases List.mem_map.1 hr with ⟨x, hx, rfl⟩
    by_cases hxk : x.investor_id = k1 ∧ x.stock_id = k2
    · rw [if_pos hxk]
      exact Or.inl (by simp [holdingKey, hxk.1, hxk.2])
    · rw [if_neg hxk]
      exact Or.inr hx
  · intro r hr
    rcases List.mem_append.1 hr with hr1 | hr1
    · exact Or.inr hr1
    · simp only [List.mem_singleton] at hr1
      subst hr1
      exact Or.inl rfl

/-- A key present before one holdings upsert is present afterwards. -/
theorem upsert_holding_row_mono (t : HoldTable) (k1 k2 : Nat) (h : Holding)
    {k : Nat × Nat} (hex : ∃ r ∈ t.rows, holdingKey r = k) :
    ∃ r ∈ (upsert_holding_row t k1 k2 h).rows, holdingKey r = k := by
  rcases hex with ⟨r, hr, hkey⟩
  unfold upsert_holding_row
  split <;> rename_i hany
  · by_cases hxk : r.investor_id = k1 ∧ r.stock_id = k2
    · refine ⟨_, List.mem_map_of_mem _ hr, ?_⟩
      rw [if_pos hxk, ← hkey]
      rfl
    · refine ⟨_, List.mem_map_of_mem _ hr, ?_⟩
      rw [if_neg hxk]
      exact hkey
  · exact ⟨r, List.mem_append.2 (Or.inl hr), hkey⟩

/-- The conflict-update of a holdings upsert only touches the mutable
columns. -/
theorem upsert_holding_update_keeps (k1 k2 : Nat) (h : Holding) (x : HoldingRow) :
    holdingKey (if x.investor_id = k1 ∧ x.stock_id = k2
      then { x with percent_holding := h.percent_holding, shares := h.shares,
                    reported_date := h.reported_date }
      else x) = holdingKey x ∧
    (if x.investor_id = k1 ∧ x.stock_id = k2
      then { x with percent_holding := h.percent_holding, shares := h.shares,
                    reported_date := h.reported_date }
      else x).id = x.id := by
  by_cases hx : x.investor_id = k1 ∧ x.stock_id = k2 <;> simp [hx, holdingKey]

/-- One holdings upsert preserves the schema invariants. -/
theorem upsert_holding_row_WF {t : HoldTable} (k1 k2 : Nat) (h : Holding)
    (hw : t.WF) : (upsert_holding_row t k1 k2 h).WF := by
  obtain ⟨hid, hkey, hlt⟩ := hw
  unfold upsert_holding_row
  split <;> rename_i hany
  · refine ⟨?_, ?_, ?_⟩
    · rw [List.pairwise_map]
      refine hid.imp_of_mem ?_
      intro a b _ _ hab
      rw [(upsert_holding_update_keeps k1 k2 h a).2,
          (upsert_holding_update_keeps k1 k2 h b).2]
      exact hab
    · rw [List.pairwise_map]
      refine hkey.imp_of_mem ?_
      intro a b _ _ hab
      rw [(upsert_holding_update_keeps k1 k2 h a).1,
          (upsert_holding_update_keeps k1 k2 h b).1]
      exact hab
    · intro x hx
      rcases List.mem_map.1 hx with ⟨a, ha, rfl⟩
      rw [(upsert_holding_update_keeps k1 k2 h a).2]
      exact hlt a ha
  · have hno : ∀ r ∈ t.rows, holdingKey r ≠ (k1, k2) := by
      intro r hr he
      refine hany (List.any_eq_true.2 ⟨r, hr, ?_⟩)
      simp only [decide_eq_true_eq]
      exact ⟨congrArg Prod.fst he, congrArg Prod.snd he⟩
    refine ⟨?_, ?_, ?_⟩
    · rw [List.pairwise_append]
      refine ⟨hid, List.pairwise_singleton _ _, ?_⟩
      intro a ha b hb
      simp only [List.mem_singleton] at hb
      subst hb
      exact Nat.ne_of_lt (hlt a ha)
    · rw [List.pairwise_append]
      refine ⟨hkey, List.pairwise_singleton _ _, ?_⟩
      intro a ha b hb
      simp only [List.mem_singleton] at hb
      subst hb
      exact hno a ha
    · intro x hx
      rcases List.mem_append.1 hx with hx1 | hx1
      · exact Nat.lt_succ_of_lt (hlt x hx1)
      · simp only [List.mem_singleton] at hx1
        subst hx1
        exact Nat.lt_succ_self _

/-- The upsert loop preserves the schema invariants. -/
theorem apply_holdings_WF :
    ∀ (g : List ((Nat × Nat) × Holding)) (t : HoldTable), t.WF →
      (apply_holdings t g).WF := by
  intro g
  induction g with
  | nil => exact fun t h => h
  | cons p rest ih =>
    intro t hw
    exact ih _ (upsert_holding_row_WF _ _ _ hw)

/-- A key present before the upsert loop is present afterwards. -/
theorem apply_holdings_mono :
    ∀ (g : List ((Nat × Nat) × Holding)) (t : HoldTable) (k : Nat × Nat),
      (∃ r ∈ t.rows, holdingKey r = k) →
      ∃ r ∈ (apply_holdings t g).rows, holdingKey r = k := by
  intro g
  induction g with
  | nil => exact fun t k h => h
  | cons p rest ih =>
    intro t k h
    exact ih _ k (upsert_holding_row_mono _ _ _ _ h)

/-- Every grouped key has a row after the upsert loop. -/
theorem apply_holdings_exists :
    ∀ (g : List ((Nat × Nat) × Holding)) (t : HoldTable) (k : Nat × Nat),
      k ∈ g.map Prod.fst →
      ∃ r ∈ (apply_holdings t g).rows, holdingKey r = k := by
  intro g
  induction g with
  | nil => intro t k h; cases h
  | cons p rest ih =>
    intro t k h
    rw [List.map_cons, List.mem_cons] at h
    rcases h with rfl | h1
    · exact apply_holdings_mono rest _ _ (upsert_holding_row_exists _ _ _ _)
    · exact ih _ k h1

/-- Every row after the upsert loop has a grouped key or was already
present. -/
theorem apply_holdings_src :
    ∀ (g : List ((Nat × Nat) × Holding)) (t : HoldTable),
      ∀ r ∈ (apply_holdings t g).rows,
        holdingKey r ∈ g.map Prod.fst ∨ r ∈ t.rows := by
  intro g
  induction g with
  | nil => exact fun t r h => Or.inr h
  | cons p rest ih =>
    intro t r hr
    rcases ih _ r hr with h1 | h1
    · exact Or.inl (List.mem_map.2 (by
        rcases List.mem_map.1 h1 with ⟨q, hq, he⟩
        exact ⟨q, List.mem_cons_of_mem _ hq, he⟩))
    · rcases upsert_holding_row_src t p.1.1 p.1.2 p.2 r h1 with h2 | h2
      · exact Or.inl (List.mem_map.2 ⟨p, List.mem_cons_self _ _, h2.symm ▸ rfl⟩)
      · exact Or.inr h2

/-- After the upsert loop, every row whose key is grouped carries the
grouped record's values (keys in the dict are distinct). -/
theorem apply_holdings_vals :
    ∀ (g : List ((Nat × Nat) × Holding)) (t : HoldTable),
      g.Pairwise (fun p q => p.1 ≠ q.1) →
      ∀ (k : Nat × Nat) (v : Holding), (k, v) ∈ g →
      ∀ r ∈ (apply_holdings t g).rows, holdingKey r = k →
        valsH r = valsOfHolding v := by
  intro g
  induction g with
  | nil => intro t _ k v h; cases h
  | cons p rest ih =>
    intro t hp k v hkv r hr hkey
    rcases List.mem_cons.1 hkv with rfl | h1
    · have hrest : ∀ q ∈ rest, q.1 ≠ k := by
        intro q hq
        exact fun he => (List.pairwise_cons.1 hp).1 q hq he.symm
      rcases apply_holdings_src rest _ r hr with h2 | h2
      · exfalso
        rcases List.mem_map.1 h2 with ⟨q, hq, he⟩
        exact hrest q hq (by rw [he, hkey])
      · exact upsert_holding_row_vals t k.1 k.2 v r h2 hkey
    · exact ih _ (List.pairwise_cons.1 hp).2 k v h1 r hr hkey

/-! ## The delete phase of sync_holdings -/

/-- With distinct row ids, deleting by collected ids is exactly filtering by
key membership in the kept set. -/
theorem delete_stale_holdings_eq (rows : List HoldingRow) (keep : List (Nat × Nat))
    (hid : rows.Pairwise (fun a b => a.id ≠ b.id)) :
    delete_stale_holdings rows keep = rows.filter (fun r => holdingKey r ∈ keep) := by
  unfold delete_stale_holdings
  refine List.filter_congr ?_
  intro r hr
  rw [decide_eq_decide]
  unfold holdingKey
  constructor
  · intro hnot
    by_contra hk
    exact hnot (List.mem_map.2 ⟨r, List.mem_filter.2 ⟨hr, by simp [hk]⟩, rfl⟩)
  · intro hk hmem
    rcases List.mem_map.1 hmem with ⟨x, hx, he⟩
    have hxr : x = r :=
      mem_eq_of_pairwise_inj hid (List.mem_of_mem_filter hx) hr he
    have hxf := List.of_mem_filter hx
    rw [hxr] at hxf
    simp at hxf
    exact hxf hk

/-! ## Resolution is injective on a well-formed store -/

/-- Two names resolving to the same id are equal. -/
theorem invId_inj {t : InvTable} (hw : t.WF) {m n : String} {j : Nat}
    (hm : invId t m = some j) (hn : invId t n = some j) : m = n := by
  unfold invId at hm hn
  cases hf1 : t.rows.find? (fun r => r.name = m) with
  | none => rw [hf1] at hm; cases hm
  | some r1 =>
    cases hf2 : t.rows.find? (fun r => r.name = n) with
    | none => rw [hf2] at hn; cases hn
    | some r2 =>
      rw [hf1] at hm
      rw [hf2] at hn
      have hm2 : r1.id = j := by simpa using hm
      have hn2 : r2.id = j := by simpa using hn
      have h1 := List.find?_some hf1
      have h2 := List.find?_some hf2
      simp only [decide_eq_true_eq] at h1 h2
      have hr : r1 = r2 := by
        refine mem_eq_of_pairwise_inj hw.1 (List.mem_of_find?_eq_some hf1)
          (List.mem_of_find?_eq_some hf2) ?_
        rw [hm2, hn2]
      rw [← h1, ← h2, hr]

/-- Two tickers resolving to the same id are equal. -/
theorem stId_inj {t : StTable} (hw : t.WF) {m n : String} {j : Nat}
    (hm : stId t m = some j) (hn : stId t n = some j) : m = n := by
  unfold stId at hm hn
  cases hf1 : t.rows.find? (fun r => r.ticker = m) with
  | none => rw [hf1] at hm; cases hm
  | some r1 =>
    cases hf2 : t.rows.find? (fun r => r.ticker = n) with
    | none => rw [hf2] at hn; cases hn
    | some r2 =>
      rw [hf1] at hm
      rw [hf2] at hn
      have hm2 : r1.id = j := by simpa using hm
      have hn2 : r2.id = j := by simpa using hn
      have h1 := List.find?_some hf1
      have h2 := List.find?_some hf2
      simp only [decide_eq_true_eq] at h1 h2
      have hr : r1 = r2 := by
        refine mem_eq_of_pairwise_inj hw.1 (List.mem_of_find?_eq_some hf1)
          (List.mem_of_find?_eq_some hf2) ?_
        rw [hm2, hn2]
      rw [← h1, ← h2, hr]

/-- Grouping only looks at the keys of the batch records. -/
theorem groupBy_congr {κ α : Type} [DecidableEq κ] {key1 key2 : α → κ}
    {xs : List α} (hxs : ∀ x ∈ xs, key1 x = key2 x) (g : List (κ × α)) :
    groupBy key1 g xs = groupBy key2 g xs := by
  induction xs generalizing g with
  | nil => rfl
  | cons x rest ih =>
    rw [groupBy, groupBy, hxs x (List.mem_cons_self _ _)]
    exact ih (fun y hy => hxs y (List.mem_cons_of_mem _ hy)) _

/-! ## Characterization of sync_holdings -/

/-- Projections of the store after `sync_holdings` (the run only writes the
investors, stocks and holdings tables). -/
theorem sync_holdings_proj (db : DB) (B : List Holding) :
    (sync_holdings db B).invTable = (resolve_holdings db.invTable db.stTable [] B).1 ∧
    (sync_holdings db B).stTable = (resolve_holdings db.invTable db.stTable [] B).2.1 ∧
    (sync_holdings db B).holdings =
      delete_stale_holdings
        (apply_holdings db.holdTable (resolve_holdings db.invTable db.stTable [] B).2.2).rows
        ((resolve_holdings db.invTable db.stTable [] B).2.2.map Prod.fst) ∧
    (sync_holdings db B).next_holding_id =
      (apply_holdings db.holdTable (resolve_holdings db.invTable db.stTable [] B).2.2).nextId ∧
    (sync_holdings db B).bulk_deals = db.bulk_deals ∧
    (sync_holdings db B).block_deals = db.block_deals ∧
    (sync_holdings db B).next_bulk_id = db.next_bulk_id ∧
    (sync_holdings db B).next_block_id = db.next_block_id ∧
    (sync_holdings db B).schedule = db.schedule :=
  ⟨rfl, rfl, rfl, rfl, rfl, rfl, rfl, rfl, rfl⟩

/-- Master characterization of `sync_holdings` on a well-formed store:
the invariants are preserved; every batch record's name and ticker resolve
in the final store; the persisted key set is exactly the batch's resolved
key set; and the row for a key carries the values of the last batch record
resolving to it. -/
theorem sync_holdings_spec (db : DB) (B : List Holding) (hwf : db.WF) :
    (sync_holdings db B).WF ∧
    (∀ h ∈ B, (invId (sync_holdings db B).invTable h.investor).isSome ∧
      (stId (sync_holdings db B).stTable h.ticker).isSome) ∧
    (∀ i s, (∃ w ∈ (sync_holdings db B).holdings,
        w.investor_id = i ∧ w.stock_id = s) ↔
      (∃ h ∈ B, invId (sync_holdings db B).invTable h.investor = some i ∧
        stId (sync_holdings db B).stTable h.ticker = some s)) ∧
    (∀ (h : Holding) (pre post : List Holding), B = pre ++ h :: post →
      (∀ h2 ∈ post, ¬(h2.investor = h.investor ∧ h2.ticker = h.ticker)) →
      ∀ w ∈ (sync_holdings db B).holdings,
        invId (sync_holdings db B).invTable h.investor = some w.investor_id →
        stId (sync_holdings db B).stTable h.ticker = some w.stock_id →
        valsH w = valsOfHolding h) := by
  obtain ⟨hp1, hp2, hp3, hp4, hp5, hp6, hp7, hp8, hp9⟩ := sync_holdings_proj db B
  obtain ⟨hwi, hws, hstab1, hstab2, hres, hg⟩ :=
    resolve_holdings_spec B db.invTable db.stTable [] hwf.1 hwf.2.1
  rw [hp1, hp2, hp3]
  set r := resolve_holdings db.invTable db.stTable [] B with hrdef
  set inv1 := r.1
  set st1 := r.2.1
  set g := r.2.2
  have hgpair : g.Pairwise (fun p q => p.1 ≠ q.1) := by
    rw [hg]
    exact groupBy_pairwise _ B (List.Pairwise.nil)
  have happWF := apply_holdings_WF g db.holdTable hwf.2.2.1
  have hdel := delete_stale_holdings_eq (apply_holdings db.holdTable g).rows
    (g.map Prod.fst) happWF.1
  have hkeys : ∀ k, k ∈ g.map Prod.fst ↔ ∃ h ∈ B, keyAtH inv1 st1 h = k := by
    intro k
    rw [hg, groupBy_keys]
    simp
  have hresolve_key : ∀ h ∈ B, ∀ i s,
      (invId inv1 h.investor = some i ∧ stId st1 h.ticker = some s) ↔
      keyAtH inv1 st1 h = (i, s) := by
    intro h hh i s
    rcases Option.isSome_iff_exists.1 (hres h hh).1 with ⟨a, ha⟩
    rcases Option.isSome_iff_exists.1 (hres h hh).2 with ⟨b, hb⟩
    unfold keyAtH
    rw [ha, hb]
    simp only [Option.getD_some]
    constructor
    · rintro ⟨h1, h2⟩
      cases h1
      cases h2
      rfl
    · intro he
      exact ⟨congrArg Option.some (congrArg Prod.fst he),
             congrArg Option.some (congrArg Prod.snd he)⟩
  refine ⟨?_, hres, ?_, ?_⟩
  · -- well-formedness of the final store
    refine ⟨hwi, hws, ?_, ?_, ?_⟩
    · show HoldTable.WF _
      have heq : (sync_holdings db B).holdTable =
          ⟨delete_stale_holdings (apply_holdings db.holdTable g).rows (g.map Prod.fst),
           (apply_holdings db.holdTable g).nextId⟩ := by
        unfold DB.holdTable
        rw [hp3, hp4]
        rfl
      rw [heq, hdel]
      refine ⟨?_, ?_, ?_⟩
      · exact List.Pairwise.sublist (List.filter_sublist _) happWF.1
      · exact List.Pairwise.sublist (List.filter_sublist _) happWF.2.1
      · intro x hx
        exact happWF.2.2 x (List.mem_of_mem_filter hx)
    · show DealTbl.WF _
      have heq : (sync_holdings db B).dealTable .bulk = db.dealTable .bulk := by
        unfold DB.dealTable
        rw [hp5, hp7]
      rw [heq]
      exact hwf.2.2.2.1
    · show DealTbl.WF _
      have heq : (sync_holdings db B).dealTable .block = db.dealTable .block := by
        unfold DB.dealTable
        rw [hp6, hp8]
      rw [heq]
      exact hwf.2.2.2.2
  · -- the persisted key set equals the batch's resolved key set
    intro i s
    rw [hdel]
    constructor
    · rintro ⟨w, hw, hi, hs⟩
      have hwa := List.mem_of_mem_filter hw
      have hwk := List.of_mem_filter hw
      simp only [decide_eq_true_eq] at hwk
      rcases (hkeys _).1 hwk with ⟨h, hh, hkey⟩
      refine ⟨h, hh, ?_⟩
      rw [hresolve_key h hh i s, hkey]
      unfold holdingKey
      rw [hi, hs]
    · rintro ⟨h, hh, hi, hs⟩
      have hkey := (hresolve_key h hh i s).1 ⟨hi, hs⟩
      have hk : (i, s) ∈ g.map Prod.fst := (hkeys _).2 ⟨h, hh, hkey⟩
      rcases apply_holdings_exists g db.holdTable (i, s) hk with ⟨w, hw, hwk⟩
      refine ⟨w, List.mem_filter.2 ⟨hw, by simp [hwk, hk]⟩,
        congrArg Prod.fst hwk, congrArg Prod.snd hwk⟩
  · -- the row for a key carries the last resolving record's values
    rintro h pre post rfl hpost w hw hi hs
    have hh : h ∈ pre ++ h :: post := List.mem_append.2 (Or.inr (List.mem_cons_self _ _))
    have hkey : keyAtH inv1 st1 h = (w.investor_id, w.stock_id) :=
      (hresolve_key h hh _ _).1 ⟨hi, hs⟩
    have hlast : (pre ++ h :: post).reverse.find?
        (fun x => keyAtH inv1 st1 x = keyAtH inv1 st1 h) = some h := by
      rw [List.reverse_append, List.reverse_cons, List.append_assoc,
        List.find?_append]
      have hnone : post.reverse.find?
          (fun x => keyAtH inv1 st1 x = keyAtH inv1 st1 h) = none := by
        rw [List.find?_eq_none]
        intro x hx
        simp only [decide_eq_true_eq]
        intro hxk
        have hxB : x ∈ pre ++ h :: post := by
          refine List.mem_append.2 (Or.inr (List.mem_cons_of_mem _ ?_))
          exact List.mem_reverse.1 hx
        rcases Option.isSome_iff_exists.1 (hres x hxB).1 with ⟨a, ha⟩
        rcases Option.isSome_iff_exists.1 (hres x hxB).2 with ⟨b, hb⟩
        rcases Option.isSome_iff_exists.1 (hres h hh).1 with ⟨c, hc⟩
        rcases Option.isSome_iff_exists.1 (hres h hh).2 with ⟨d, hd⟩
        have hac : a = c := by
          have := congrArg Prod.fst hxk
          unfold keyAtH at this
          rw [ha, hc] at this
          simpa using this
        have hbd : b = d := by
          have := congrArg Prod.snd hxk
          unfold keyAtH at this
          rw [hb, hd] at this
          simpa using this
        exact hpost x (List.mem_reverse.1 hx)
          ⟨invId_inj hwi ha (hac ▸ hc), stId_inj hws hb (hbd ▸ hd)⟩
      rw [hnone]
      simp [List.find?]
    have hlook : lookupKey g (keyAtH inv1 st1 h) = some h := by
      rw [hg, lookupKey_groupBy, hlast]
    have hmem := mem_of_lookupKey_eq_some hlook
    rw [hdel] at hw
    refine apply_holdings_vals g db.holdTable hgpair _ h hmem w
      (List.mem_of_mem_filter hw) ?_
    rw [hkey]
    rfl

/-! ## Idempotence helpers -/

/-- When every batch name and ticker is already present, the resolution loop
changes no resolution: names resolve exactly as before and the stocks table
is untouched. -/
theorem resolve_holdings_presence :
    ∀ (hs : List Holding) (inv : InvTable) (st : StTable)
      (g : List ((Nat × Nat) × Holding)),
      (∀ h ∈ hs, (invId inv h.investor).isSome ∧ (stId st h.ticker).isSome) →
      (∀ m, invId (resolve_holdings inv st g hs).1 m = invId inv m) ∧
      (resolve_holdings inv st g hs).2.1 = st := by
  intro hs
  induction hs with
  | nil => exact fun inv st g _ => ⟨fun m => rfl, rfl⟩
  | cons h rest ih =>
    intro inv st g hpres
    have h0 := hpres h (List.mem_cons_self _ _)
    have hstock := @upsert_stock_found st h.ticker h0.2
    have hinv := @upsert_investor_found inv h.investor h.source_url h0.1
    have hrest : ∀ h2 ∈ rest,
        (invId (_upsert_investor inv h.investor h.source_url).1 h2.investor).isSome ∧
        (stId (_upsert_stock st h.ticker).1 h2.ticker).isSome := by
      intro h2 hh2
      rw [hinv h2.investor, hstock]
      exact hpres h2 (List.mem_cons_of_mem _ hh2)
    obtain ⟨ih1, ih2⟩ := ih (_upsert_investor inv h.investor h.source_url).1
      (_upsert_stock st h.ticker).1
      (dictInsert g
        ((_upsert_investor inv h.investor h.source_url).2,
         (_upsert_stock st h.ticker).2) h) hrest
    refine ⟨?_, ?_⟩
    · intro m
      rw [show resolve_holdings inv st g (h :: rest)
        = resolve_holdings (_upsert_investor inv h.investor h.source_url).1
            (_upsert_stock st h.ticker).1
            (dictInsert g
              ((_upsert_investor inv h.investor h.source_url).2,
               (_upsert_stock st h.ticker).2) h) rest from rfl]
      rw [ih1 m, hinv m]
    · rw [show resolve_holdings inv st g (h :: rest)
        = resolve_holdings (_upsert_investor inv h.investor h.source_url).1
            (_upsert_stock st h.ticker).1
            (dictInsert g
              ((_upsert_investor inv h.investor h.source_url).2,
               (_upsert_stock st h.ticker).2) h) rest from rfl]
      rw [ih2, hstock]

/-- A holdings upsert whose key already has a row carrying exactly the
upserted values is the identity. -/
theorem upsert_holding_row_id {t : HoldTable} {k1 k2 : Nat} {v : Holding}
    (hex : ∃ w ∈ t.rows, holdingKey w = (k1, k2))
    (hvals : ∀ w ∈ t.rows, holdingKey w = (k1, k2) → valsH w = valsOfHolding v) :
    upsert_holding_row t k1 k2 v = t := by
  unfold upsert_holding_row
  rcases hex with ⟨w, hw, hwk⟩
  rw [if_pos]
  · have hmapid : t.rows.map (fun x =>
        if x.investor_id = k1 ∧ x.stock_id = k2 then
          { x with percent_holding := v.percent_holding, shares := v.shares,
                   reported_date := v.reported_date }
        else x) = t.rows := by
      have hpt : ∀ x ∈ t.rows, (if x.investor_id = k1 ∧ x.stock_id = k2 then
          { x with percent_holding := v.percent_holding, shares := v.shares,
                   reported_date := v.reported_date }
        else x) = x := by
        intro x hx
        by_cases hk : x.investor_id = k1 ∧ x.stock_id = k2
        · rw [if_pos hk]
          have hv := hvals x hx (by
            unfold holdingKey
            rw [hk.1, hk.2])
          unfold valsH valsOfHolding at hv
          have h1 := congrArg Prod.fst hv
          have h2 := congrArg (fun p => p.2.1) hv
          have h3 := congrArg (fun p => p.2.2) hv
          simp only at h1 h2 h3
          cases x
          simp only at h1 h2 h3 ⊢
          rw [h1, h2, h3]
        · rw [if_neg hk]
      rw [List.map_congr_left hpt]
      exact List.map_id' t.rows
    rw [hmapid]
  · refine List.any_eq_true.2 ⟨w, hw, ?_⟩
    simp only [decide_eq_true_eq]
    exact ⟨congrArg Prod.fst hwk, congrArg Prod.snd hwk⟩

/-- The upsert loop is the identity when every grouped entry's key already
has rows carrying exactly that entry's values. -/
theorem apply_holdings_id :
    ∀ (g : List ((Nat × Nat) × Holding)) (t : HoldTable),
      (∀ k v, (k, v) ∈ g → (∃ w ∈ t.rows, holdingKey w = k) ∧
        (∀ w ∈ t.rows, holdingKey w = k → valsH w = valsOfHolding v)) →
      apply_holdings t g = t := by
  intro g
  induction g with
  | nil => exact fun t _ => rfl
  | cons p rest ih =>
    intro t hcond
    have h0 := hcond p.1 p.2 (by
      rw [show ((p.1, p.2) : (Nat × Nat) × Holding) = p from rfl]
      exact List.mem_cons_self _ _)
    have hid : upsert_holding_row t p.1.1 p.1.2 p.2 = t := by
      refine upsert_holding_row_id ?_ ?_
      · rcases h0.1 with ⟨w, hw, hwk⟩
        exact ⟨w, hw, by rw [hwk]⟩
      · intro w hw hwk
        exact h0.2 w hw (by rw [hwk])
    rw [show apply_holdings t (p :: rest) =
      apply_holdings (upsert_holding_row t p.1.1 p.1.2 p.2) rest from by
        rw [show (p :: rest : List ((Nat × Nat) × Holding)) = (p.1, p.2) :: rest from rfl]
        rfl]
    rw [hid]
    exact ih t (fun k v hkv => hcond k v (List.mem_cons_of_mem _ hkv))

/-- Idempotence of the holdings reconciliation: a second identical run does
not change the holdings table (helper; the claim theorem instantiates it). -/
theorem sync_holdings_idemp (db : DB) (B : List Holding) (hwf : db.WF) :
    (sync_holdings (sync_holdings db B) B).holdings = (sync_holdings db B).holdings := by
  obtain ⟨hq1, hq2, hq3, hq4, _, _, _, _, _⟩ := sync_holdings_proj db B
  obtain ⟨hwi, hws, _, _, hres1, hg1⟩ :=
    resolve_holdings_spec B db.invTable db.stTable [] hwf.1 hwf.2.1
  have hS1 := sync_holdings_spec db B hwf
  have hwfS1 := hS1.1
  obtain ⟨hp1, hp2, hp3, hp4, _, _, _, _, _⟩ := sync_holdings_proj (sync_holdings db B) B
  have hpres := hS1.2.1
  obtain ⟨_, _, _, _, hres2, hg2⟩ :=
    resolve_holdings_spec B (sync_holdings db B).invTable (sync_holdings db B).stTable []
      hwfS1.1 hwfS1.2.1
  obtain ⟨hfix, hstfix⟩ := resolve_holdings_presence B (sync_holdings db B).invTable
    (sync_holdings db B).stTable [] hpres
  set g1 := (resolve_holdings db.invTable db.stTable [] B).2.2 with hg1def
  have hgpair1 : g1.Pairwise (fun p q => p.1 ≠ q.1) := by
    rw [hg1]
    exact groupBy_pairwise _ B List.Pairwise.nil
  have hkeyeq : ∀ h,
      keyAtH (resolve_holdings (sync_holdings db B).invTable
          (sync_holdings db B).stTable [] B).1
        (resolve_holdings (sync_holdings db B).invTable
          (sync_holdings db B).stTable [] B).2.1 h
      = keyAtH (resolve_holdings db.invTable db.stTable [] B).1
          (resolve_holdings db.invTable db.stTable [] B).2.1 h := by
    intro h
    unfold keyAtH
    rw [hfix, hstfix, hq1, hq2]
  have hgeq : (resolve_holdings (sync_holdings db B).invTable
      (sync_holdings db B).stTable [] B).2.2 = g1 := by
    rw [hg2, hg1]
    exact groupBy_congr (fun x _ => hkeyeq x) []
  have hdel1 := delete_stale_holdings_eq (apply_holdings db.holdTable g1).rows
    (g1.map Prod.fst) (apply_holdings_WF g1 db.holdTable hwf.2.2.1).1
  have hkeysS1 : ∀ w ∈ (sync_holdings db B).holdings,
      holdingKey w ∈ g1.map Prod.fst := by
    intro w hw
    rw [hq3, hdel1] at hw
    have := List.of_mem_filter hw
    simpa using this
  have hexS1 : ∀ k, k ∈ g1.map Prod.fst →
      ∃ w ∈ (sync_holdings db B).holdings, holdingKey w = k := by
    intro k hk
    rcases apply_holdings_exists g1 db.holdTable k hk with ⟨w, hw, hwk⟩
    rw [hq3, hdel1]
    exact ⟨w, List.mem_filter.2 ⟨hw, by simp [hwk, hk]⟩, hwk⟩
  have hvalsS1 : ∀ k v, (k, v) ∈ g1 → ∀ w ∈ (sync_holdings db B).holdings,
      holdingKey w = k → valsH w = valsOfHolding v := by
    intro k v hkv w hw hwk
    rw [hq3, hdel1] at hw
    exact apply_holdings_vals g1 db.holdTable hgpair1 k v hkv w
      (List.mem_of_mem_filter hw) hwk
  have happ2 : apply_holdings (sync_holdings db B).holdTable g1
      = (sync_holdings db B).holdTable := by
    refine apply_holdings_id g1 _ ?_
    intro k v hkv
    have hk : k ∈ g1.map Prod.fst := List.mem_map.2 ⟨(k, v), hkv, rfl⟩
    exact ⟨hexS1 k hk, fun w hw hwk => hvalsS1 k v hkv w hw hwk⟩
  rw [hp3, hgeq, happ2]
  rw [delete_stale_holdings_eq _ _ hwfS1.2.2.1.1]
  refine List.filter_eq_self.2 ?_
  intro w hw
  simp only [decide_eq_true_eq]
  exact hkeysS1 w hw

/-! ## The deals pipeline (_sync_deals) -/

/-- Every grouped deal entry comes from the batch (or the initial dict), and
its key's date component is the record's deal date. -/
theorem resolve_deals_mem :
    ∀ (ds : List Deal) (inv : InvTable) (st : StTable)
      (g : List ((Nat × Nat × Date) × Deal)) (k : Nat × Nat × Date) (v : Deal),
      (k, v) ∈ (resolve_deals inv st g ds).2.2 →
      (k, v) ∈ g ∨ (v ∈ ds ∧ v.deal_date = k.2.2) := by
  intro ds
  induction ds with
  | nil => exact fun inv st g k v h => Or.inl h
  | cons d rest ih =>
    intro inv st g k v h
    rcases ih _ _ _ k v h with h1 | ⟨hv, hd⟩
    · rcases mem_dictInsert h1 with h2 | ⟨rfl, rfl⟩
      · exact Or.inl h2
      · exact Or.inr ⟨List.mem_cons_self _ _, rfl⟩
    · exact Or.inr ⟨List.mem_cons_of_mem _ hv, hd⟩

/-- The grouped deal dict has distinct keys. -/
theorem resolve_deals_pairwise :
    ∀ (ds : List Deal) (inv : InvTable) (st : StTable)
      (g : List ((Nat × Nat × Date) × Deal)),
      g.Pairwise (fun p q => p.1 ≠ q.1) →
      (resolve_deals inv st g ds).2.2.Pairwise (fun p q => p.1 ≠ q.1) := by
  intro ds
  induction ds with
  | nil => exact fun inv st g h => h
  | cons d rest ih =>
    intro inv st g h
    exact ih _ _ _ (pairwise_dictInsert _ _ h)

/-- The conflict-update of a deal upsert only touches the mutable columns. -/
theorem upsert_deal_update_keeps (k : Nat × Nat × Date) (d : Deal) (x : DealRow) :
    dealKey (if (x.investor_id, x.stock_id, x.deal_date) = k
      then { x with quantity := d.quantity, price := d.price }
      else x) = dealKey x ∧
    (if (x.investor_id, x.stock_id, x.deal_date) = k
      then { x with quantity := d.quantity, price := d.price }
      else x).id = x.id := by
  by_cases hx : (x.investor_id, x.stock_id, x.deal_date) = k <;> simp [hx, dealKey]

/-- After one deal upsert every row with the upserted key carries the
record's values. -/
theorem upsert_deal_row_vals (t : DealTbl) (k : Nat × Nat × Date) (d : Deal) :
    ∀ r ∈ (upsert_deal_row t k d).rows, dealKey r = k → valsD r = valsOfDeal d := by
  unfold upsert_deal_row
  split <;> rename_i hany
  · intro r hr hkey
    rcases List.mem_map.1 hr with ⟨x, hx, rfl⟩
    by_cases hxk : (x.investor_id, x.stock_id, x.deal_date) = k
    · rw [if_pos hxk]
      rfl
    · rw [if_neg hxk] at hkey ⊢
      exact absurd hkey hxk
  · have hno : ∀ r ∈ t.rows, ¬((r.investor_id, r.stock_id, r.deal_date) = k) := by
      intro r hr hc
      exact hany (List.any_eq_true.2 ⟨r, hr, by simp [hc]⟩)
    intro r hr hkey
    rcases List.mem_append.1 hr with hr1 | hr1
    · exact absurd hkey (hno r hr1)
    · simp only [List.mem_singleton] at hr1
      subst hr1
      rfl

/-- Every row after one deal upsert has the upserted key or was already
present. -/
theorem upsert_deal_row_src (t : DealTbl) (k : Nat × Nat × Date) (d : Deal) :
    ∀ r ∈ (upsert_deal_row t k d).rows, dealKey r = k ∨ r ∈ t.rows := by
  unfold upsert_deal_row
  split <;> rename_i hany
  · intro r hr
    rcases List.mem_map.1 hr with ⟨x, hx, rfl⟩
    by_cases hxk : (x.investor_id, x.stock_id, x.deal_date) = k
    · rw [if_pos hxk]
      exact Or.inl hxk
    · rw [if_neg hxk]
      exact Or.inr hx
  · intro r hr
    rcases List.mem_append.1 hr with hr1 | hr1
    · exact Or.inr hr1
    · simp only [List.mem_singleton] at hr1
      subst hr1
      exact Or.inl rfl

/-- One deal upsert preserves the schema invariants. -/
theorem upsert_deal_row_WF {t : DealTbl} (k : Nat × Nat × Date) (d : Deal)
    (hw : t.WF) : (upsert_deal_row t k d).WF := by
  obtain ⟨hid, hkey, hlt⟩ := hw
  unfold upsert_deal_row
  split <;> rename_i hany
  · refine ⟨?_, ?_, ?_⟩
    · rw [List.pairwise_map]
      refine hid.imp_of_mem ?_
      intro a b _ _ hab
      rw [(upsert_deal_update_keeps k d a).2, (upsert_deal_update_keeps k d b).2]
      exact hab
    · rw [List.pairwise_map]
      refine hkey.imp_of_mem ?_
      intro a b _ _ hab
      rw [(upsert_deal_update_keeps k d a).1, (upsert_deal_update_keeps k d b).1]
      exact hab
    · intro x hx
      rcases List.mem_map.1 hx with ⟨a, ha, rfl⟩
      rw [(upsert_deal_update_keeps k d a).2]
      exact hlt a ha
  · have hno : ∀ r ∈ t.rows, dealKey r ≠ k := by
      intro r hr he
      refine hany (List.any_eq_true.2 ⟨r, hr, ?_⟩)
      simp only [decide_eq_true_eq]
      exact he
    refine ⟨?_, ?_, ?_⟩
    · rw [List.pairwise_append]
      refine ⟨hid, List.pairwise_singleton _ _, ?_⟩
      intro a ha b hb
      simp only [List.mem_singleton] at hb
      subst hb
      exact Nat.ne_of_lt (hlt a ha)
    · rw [List.pairwise_append]
      refine ⟨hkey, List.pairwise_singleton _ _, ?_⟩
      intro a ha b hb
      simp only [List.mem_singleton] at hb
      subst hb
      intro he
      exact hno a ha (by rw [he]; rfl)
    · intro x hx
      rcases List.mem_append.1 hx with hx1 | hx1
      · exact Nat.lt_succ_of_lt (hlt x hx1)
      · simp only [List.mem_singleton] at hx1
        subst hx1
        exact Nat.lt_succ_self _

/-- The deal upsert loop preserves the schema invariants. -/
theorem apply_deals_WF :
    ∀ (g : List ((Nat × Nat × Date) × Deal)) (t : DealTbl), t.WF →
      (apply_deals t g).WF := by
  intro g
  induction g with
  | nil => exact fun t h => h
  | cons p rest ih =>
    intro t hw
    exact ih _ (upsert_deal_row_WF _ _ hw)

/-- Every row after the deal upsert loop has a grouped key or was already
present. -/
theorem apply_deals_src :
    ∀ (g : List ((Nat × Nat × Date) × Deal)) (t : DealTbl),
      ∀ r ∈ (apply_deals t g).rows, dealKey r ∈ g.map Prod.fst ∨ r ∈ t.rows := by
  intro g
  induction g with
  | nil => exact fun t r h => Or.inr h
  | cons p rest ih =>
    intro t r hr
    rcases ih _ r hr with h1 | h1
    · exact Or.inl (List.mem_map.2 (by
        rcases List.mem_map.1 h1 with ⟨q, hq, he⟩
        exact ⟨q, List.mem_cons_of_mem _ hq, he⟩))
    · rcases upsert_deal_row_src t p.1 p.2 r h1 with h2 | h2
      · exact Or.inl (List.mem_map.2 ⟨p, List.mem_cons_self _ _, h2.symm ▸ rfl⟩)
      · exact Or.inr h2

/-- After the deal upsert loop, every row whose key is grouped carries the
grouped record's values. -/
theorem apply_deals_vals :
    ∀ (g : List ((Nat × Nat × Date) × Deal)) (t : DealTbl),
      g.Pairwise (fun p q => p.1 ≠ q.1) →
      ∀ (k : Nat × Nat × Date) (v : Deal), (k, v) ∈ g →
      ∀ r ∈ (apply_deals t g).rows, dealKey r = k → valsD r = valsOfDeal v := by
  intro g
  induction g with
  | nil => intro t _ k v h; cases h
  | cons p rest ih =>
    intro t hp k v hkv r hr hkey
    rcases List.mem_cons.1 hkv with rfl | h1
    · have hrest : ∀ q ∈ rest, q.1 ≠ k := by
        intro q hq
        exact fun he => (List.pairwise_cons.1 hp).1 q hq he.symm
      rcases apply_deals_src rest _ r hr with h2 | h2
      · exfalso
        rcases List.mem_map.1 h2 with ⟨q, hq, he⟩
        exact hrest q hq (by rw [he, hkey])
      · exact upsert_deal_row_vals t k v r h2 hkey
    · exact ih _ (List.pairwise_cons.1 hp).2 k v h1 r hr hkey

/-- With distinct row ids, the deals delete phase is exactly filtering by
key membership in the kept set. -/
theorem delete_stale_deals_eq (rows : List DealRow) (keep : List (Nat × Nat × Date))
    (hid : rows.Pairwise (fun a b => a.id ≠ b.id)) :
    delete_stale_deals rows keep = rows.filter (fun r => dealKey r ∈ keep) := by
  unfold delete_stale_deals
  refine List.filter_congr ?_
  intro r hr
  rw [decide_eq_decide]
  unfold dealKey
  constructor
  · intro hnot
    by_contra hk
    exact hnot (List.mem_map.2 ⟨r, List.mem_filter.2 ⟨hr, by simp [hk]⟩, rfl⟩)
  · intro hk hmem
    rcases List.mem_map.1 hmem with ⟨x, hx, he⟩
    have hxr : x = r :=
      mem_eq_of_pairwise_inj hid (List.mem_of_mem_filter hx) hr he
    have hxf := List.of_mem_filter hx
    rw [hxr] at hxf
    simp at hxf
    exact hxf hk

/-- Projection of the deal table written by `_sync_deals`. -/
theorem sync_deals_proj (db : DB) (ds : List Deal) (t : DealTable) :
    (_sync_deals db ds t).dealTable t =
      ⟨delete_stale_deals
        (apply_deals (db.dealTable t)
          (resolve_deals db.invTable db.stTable [] ds).2.2).rows
        ((resolve_deals db.invTable db.stTable [] ds).2.2.map Prod.fst),
       (apply_deals (db.dealTable t)
          (resolve_deals db.invTable db.stTable [] ds).2.2).nextId⟩ := by
  cases t <;> rfl

/-- Provenance of the rows `_sync_deals` leaves in its table: every
persisted row takes its date, quantity and price from some record of the
batch it was called with. -/
theorem sync_deals_provenance (db : DB) (ds : List Deal) (t : DealTable)
    (hw : (db.dealTable t).WF) :
    ∀ w ∈ ((_sync_deals db ds t).dealTable t).rows,
      ∃ d ∈ ds, w.deal_date = d.deal_date ∧ valsD w = valsOfDeal d := by
  intro w hw1
  rw [sync_deals_proj] at hw1
  simp only at hw1
  set g := (resolve_deals db.invTable db.stTable [] ds).2.2 with hgdef
  have hgpair : g.Pairwise (fun p q => p.1 ≠ q.1) :=
    resolve_deals_pairwise ds _ _ [] List.Pairwise.nil
  have happWF := apply_deals_WF g (db.dealTable t) hw
  rw [delete_stale_deals_eq _ _ happWF.1] at hw1
  have hwa := List.mem_of_mem_filter hw1
  have hwk := List.of_mem_filter hw1
  simp only [decide_eq_true_eq] at hwk
  rcases List.mem_map.1 hwk with ⟨p, hp, hpk⟩
  have hvals := apply_deals_vals g (db.dealTable t) hgpair p.1 p.2
    (by rw [show ((p.1, p.2) : (Nat × Nat × Date) × Deal) = p from rfl]; exact hp)
    w hwa hpk.symm
  rcases resolve_deals_mem ds db.invTable db.stTable [] p.1 p.2
    (by rw [show ((p.1, p.2) : (Nat × Nat × Date) × Deal) = p from rfl]; exact hp)
    with hc | ⟨hmem, hdate⟩
  · cases hc
  · refine ⟨p.2, hmem, ?_, hvals⟩
    have : w.deal_date = p.1.2.2 := by
      have := congrArg (fun q : Nat × Nat × Date => q.2.2) hpk
      simpa [dealKey] using this.symm
    rw [this, ← hdate]

/-! ## Fetch-loop lemmas (adapter row handling) -/

/-- A skipped row drops out of the iteration: the generator behaves as if
the row were not there. -/
theorem fetchLoop_skip {ρ : Type} (step : ρ → RowStep) (row : ρ)
    (h : step row = .skip) (pre post : List ρ) :
    fetchLoop step (pre ++ row :: post) = fetchLoop step (pre ++ post) := by
  induction pre with
  | nil => simp only [List.nil_append, fetchLoop, h]
  | cons p rest ih => simp only [List.cons_append, fetchLoop, List.append_eq, ih]

/-- A raising row ends the iteration: everything yielded comes from the rows
before it, and the error is reported. -/
theorem fetchLoop_raise {ρ : Type} (step : ρ → RowStep) (row : ρ) (e : PErr)
    (h : step row = .raise e) (pre post : List ρ) :
    (fetchLoop step (pre ++ row :: post)).1 = (fetchLoop step pre).1 ∧
    (fetchLoop step (pre ++ row :: post)).2 ≠ none := by
  induction pre with
  | nil =>
    constructor
    · simp only [List.nil_append, fetchLoop, h]
    · simp only [List.nil_append, fetchLoop, h]
      simp
  | cons p rest ih =>
    constructor
    · simp only [List.cons_append, fetchLoop, List.append_eq]
      cases hs : step p <;> simp [ih.1]
    · simp only [List.cons_append, fetchLoop, List.append_eq]
      cases hs : step p <;> simp [ih.2]

/-- The Screener row loop skips a row whose date cell parses (or is absent or
empty) when its side text is not exactly "buy"/"sell" or its date is absent. -/
theorem screener_deal_row_skip (investor url dt : String) (row : SRow)
    (dOpt : Option Date) (hdate : parse_date (cellAt row.cells 1) = .ok dOpt)
    (hskip : ¬(side_text_of row.cells = "buy" ∨ side_text_of row.cells = "sell") ∨
      dOpt = none) :
    screener_deal_row investor url dt row = .skip := by
  unfold screener_deal_row
  split
  · rfl
  · cases row.anchor with
    | none => rfl
    | some a =>
      simp only
      rw [hdate]
      dsimp only
      rcases hskip with hbad | rfl
      · rw [if_pos hbad]
      · by_cases hb : ¬(side_text_of row.cells = "buy" ∨ side_text_of row.cells = "sell")
        · rw [if_pos hb]
        · rw [if_neg hb]

/-- The Trendlyne row loop skips under the same conditions. -/
theorem trendlyne_deal_row_skip (investor url dt : String) (row : TRow)
    (dOpt : Option Date) (hdate : parse_date (cellAt row.cells 1) = .ok dOpt)
    (hskip : ¬(side_text_of row.cells = "buy" ∨ side_text_of row.cells = "sell") ∨
      dOpt = none) :
    trendlyne_deal_row investor url dt row = .skip := by
  unfold trendlyne_deal_row
  split
  · rfl
  · simp only
    rw [hdate]
    dsimp only
    cases dOpt with
    | none => rfl
    | some dd =>
      rcases hskip with hbad | hnone
      · simp [hbad]
      · cases hnone

/-- The Screener row loop raises on a non-empty unparsable date cell (when
the row reaches the date parse at all: it has cells and a linked first
cell). -/
theorem screener_deal_row_raise (investor url dt : String) (row : SRow)
    (a : String) (e : PErr)
    (hc : row.cells.isEmpty = false) (ha : row.anchor = some a)
    (hdate : parse_date (cellAt row.cells 1) = .error e) :
    screener_deal_row investor url dt row = .raise e := by
  unfold screener_deal_row
  rw [if_neg (by simp [hc]), ha]
  simp only
  rw [hdate]

/-- The Trendlyne row loop raises on a non-empty unparsable date cell. -/
theorem trendlyne_deal_row_raise (investor url dt : String) (row : TRow) (e : PErr)
    (hc : row.cells.isEmpty = false)
    (hdate : parse_date (cellAt row.cells 1) = .error e) :
    trendlyne_deal_row investor url dt row = .raise e := by
  unfold trendlyne_deal_row
  rw [if_neg (by simp [hc])]
  simp only
  rw [hdate]

/-! ## Claim theorems -/

/-- C9: the field parsers satisfy the round-trip example:
parse_float "12.34%" = 12.34, parse_int "1,234" = 1234, and
parse_date "05-01-2024" = 2024-01-05 (day-first reading). -/
theorem claim_c9_round_trip :
    parse_float (some "12.34%") = Except.ok (some (12.34 : ℚ)) ∧
    parse_int (some "1,234") = some 1234 ∧
    parse_date (some "05-01-2024") = Except.ok (some ⟨2024, 1, 5⟩) := by
  refine ⟨?_, by decide, by decide⟩
  rw [show (12.34 : ℚ) = mkRat 1234 100 by norm_num [Rat.mkRat_eq_div]]
  decide

/-- C10: parse_float is not total on non-empty strings: on "1.2.3" the
direct float parse fails, the digit-and-dot fallback returns the same
non-empty string, which fails again, so parse_float raises (the second
float call is outside the try block). -/
theorem claim_c10_parse_float_raises :
    ("1.2.3" : String) ≠ "" ∧
    pyFloat "1.2.3" = none ∧
    String.mk ("1.2.3".toList.filter (fun c => c.isDigit || c == '.')) = "1.2.3" ∧
    parse_float (some "1.2.3") = Except.error PErr.parseError := by
  exact ⟨by decide, by decide, by decide, by decide⟩

/-- C6 (counterexample): calling update_schedule without a timezone argument
does not preserve the stored timezone: with "Asia/Kolkata" stored, the
persisted timezone afterwards is the fixed default "UTC". -/
theorem claim_c6_counterexample :
    ({ emptyDB with schedule := some ⟨5, 0, "Asia/Kolkata"⟩ } : DB).schedule
      = some ⟨5, 0, "Asia/Kolkata"⟩ ∧
    ((update_schedule { emptyDB with schedule := some ⟨5, 0, "Asia/Kolkata"⟩ }
        9 30).1.schedule.map ScheduleRow.timezone) = some "UTC" ∧
    ("UTC" : String) ≠ "Asia/Kolkata" := by
  exact ⟨rfl, rfl, by decide⟩

/-- C6 (amended): when update_schedule is called without a timezone
argument, the persisted timezone is the parameter default "UTC", whatever
was stored before (so the stored value is preserved only when it was
already "UTC"). -/
theorem claim_c6_amended (db : DB) (hour minute : Int) :
    (update_schedule db hour minute).1.schedule
      = some { hour := hour, minute := minute, timezone := "UTC" } := rfl

/-- C3: the schedule-update operation of the controller (time parsing and
validation in app.py feeding db.py update_schedule) validates its inputs:
24:00 and 5:60 are rejected with a 400 and the stored row is unchanged;
9:30 succeeds and a subsequent get_or_create_schedule returns 9:30. -/
theorem claim_c3_schedule_validation (db : DB) (r : ScheduleRow)
    (hr : db.schedule = some r) :
    ((update_schedule_view db "24:00").1.schedule = some r ∧
      (update_schedule_view db "24:00").2 =
        ViewResult.badRequest "Hours must be 0-23 and minutes 0-59") ∧
    ((update_schedule_view db "5:60").1.schedule = some r ∧
      (update_schedule_view db "5:60").2 =
        ViewResult.badRequest "Hours must be 0-23 and minutes 0-59") ∧
    ((update_schedule_view db "9:30").2 = ViewResult.redirect ∧
      (get_or_create_schedule (update_schedule_view db "9:30").1).2.hour = 9 ∧
      (get_or_create_schedule (update_schedule_view db "9:30").1).2.minute = 30) := by
  have h24 : _parse_time "24:00" = .error "Hours must be 0-23 and minutes 0-59" := by
    decide
  have h560 : _parse_time "5:60" = .error "Hours must be 0-23 and minutes 0-59" := by
    decide
  have h930 : _parse_time "9:30" = .ok (9, 30) := by decide
  unfold update_schedule_view
  rw [h24, h560, h930]
  unfold get_or_create_schedule update_schedule
  rw [hr]
  refine ⟨⟨?_, ?_⟩, ⟨?_, ?_⟩, ?_, ?_, ?_⟩ <;> first | rfl | exact hr

/-- Witness for C3 at a concrete store. -/
theorem claim_c3_witness :
    ({ emptyDB with schedule := some ⟨2, 0, "UTC"⟩ } : DB).schedule
      = some ⟨2, 0, "UTC"⟩ ∧
    (((update_schedule_view { emptyDB with schedule := some ⟨2, 0, "UTC"⟩ }
          "24:00").1.schedule = some ⟨2, 0, "UTC"⟩ ∧
      (update_schedule_view { emptyDB with schedule := some ⟨2, 0, "UTC"⟩ }
          "24:00").2 = ViewResult.badRequest "Hours must be 0-23 and minutes 0-59") ∧
    ((update_schedule_view { emptyDB with schedule := some ⟨2, 0, "UTC"⟩ }
          "5:60").1.schedule = some ⟨2, 0, "UTC"⟩ ∧
      (update_schedule_view { emptyDB with schedule := some ⟨2, 0, "UTC"⟩ }
          "5:60").2 = ViewResult.badRequest "Hours must be 0-23 and minutes 0-59") ∧
    ((update_schedule_view { emptyDB with schedule := some ⟨2, 0, "UTC"⟩ }
          "9:30").2 = ViewResult.redirect ∧
      (get_or_create_schedule (update_schedule_view
          { emptyDB with schedule := some ⟨2, 0, "UTC"⟩ } "9:30").1).2.hour = 9 ∧
      (get_or_create_schedule (update_schedule_view
          { emptyDB with schedule := some ⟨2, 0, "UTC"⟩ } "9:30").1).2.minute = 30)) :=
  ⟨rfl, claim_c3_schedule_validation _ _ rfl⟩

/-- C5 (counterexample): a data row whose date cell is non-empty but
unparsable makes both adapters' fetch_deals raise instead of skipping the
row — dateutil's error propagates out of parse_date. -/
theorem claim_c5_counterexample :
    parse_date (cellAt ["X", "not-a-date", "buy"] 1) = Except.error PErr.parseError ∧
    screener_fetch_deals "I" "u" "bulk" [⟨["X", "not-a-date", "buy"], some "X"⟩]
      = ([], some PErr.parseError) ∧
    trendlyne_fetch_deals "I" "u" "bulk" [⟨["X", "not-a-date", "buy"]⟩]
      = ([], some PErr.parseError) := by
  exact ⟨by decide, by decide, by decide⟩

/-- C5 (amended): in both adapters' fetch_deals, a data row whose side cell
is not exactly "buy"/"sell", or whose date cell is absent or empty, is
skipped and iteration continues — provided the row's date cell does not
raise while parsing (a non-empty unparsable date cell instead raises out of
the generator, shown by the counterexample). -/
theorem claim_c5_amended_skip :
    (∀ (investor url dt : String) (row : SRow) (dOpt : Option Date)
        (pre post : List SRow),
      parse_date (cellAt row.cells 1) = Except.ok dOpt →
      (¬(side_text_of row.cells = "buy" ∨ side_text_of row.cells = "sell") ∨
        dOpt = none) →
      screener_fetch_deals investor url dt (pre ++ row :: post)
        = screener_fetch_deals investor url dt (pre ++ post)) ∧
    (∀ (investor url dt : String) (row : TRow) (dOpt : Option Date)
        (pre post : List TRow),
      parse_date (cellAt row.cells 1) = Except.ok dOpt →
      (¬(side_text_of row.cells = "buy" ∨ side_text_of row.cells = "sell") ∨
        dOpt = none) →
      trendlyne_fetch_deals investor url dt (pre ++ row :: post)
        = trendlyne_fetch_deals investor url dt (pre ++ post)) := by
  constructor
  · intro investor url dt row dOpt pre post hdate hskip
    exact fetchLoop_skip _ row
      (screener_deal_row_skip investor url dt row dOpt hdate hskip) pre post
  · intro investor url dt row dOpt pre post hdate hskip
    exact fetchLoop_skip _ row
      (trendlyne_deal_row_skip investor url dt row dOpt hdate hskip) pre post

/-- Witness for the amended C5: a Screener row with side "hold" and a
Trendlyne row with an empty date cell are both skipped. -/
theorem claim_c5_amended_witness :
    (parse_date (cellAt ["X", "05-01-2024", "hold"] 1)
        = Except.ok (some ⟨2024, 1, 5⟩) ∧
      ¬(side_text_of ["X", "05-01-2024", "hold"] = "buy" ∨
        side_text_of ["X", "05-01-2024", "hold"] = "sell") ∧
      screener_fetch_deals "I" "u" "bulk"
          ([] ++ (⟨["X", "05-01-2024", "hold"], some "X"⟩ : SRow) :: [])
        = screener_fetch_deals "I" "u" "bulk" ([] ++ [])) ∧
    (parse_date (cellAt ["X", "", "buy"] 1) = Except.ok none ∧
      trendlyne_fetch_deals "I" "u" "bulk" ([] ++ (⟨["X", "", "buy"]⟩ : TRow) :: [])
        = trendlyne_fetch_deals "I" "u" "bulk" ([] ++ [])) :=
  ⟨⟨by decide, by decide,
    claim_c5_amended_skip.1 "I" "u" "bulk" _ (some ⟨2024, 1, 5⟩) [] []
      (by decide) (Or.inl (by decide))⟩,
   ⟨by decide,
    claim_c5_amended_skip.2 "I" "u" "bulk" _ none [] [] (by decide) (Or.inr rfl)⟩⟩

/-- C1: after sync_holdings(B) the set of (investor_id, stock_id) keys of
holdings rows equals exactly the set of resolved (investor, ticker) keys
present in B — every key in B has a row, and every row whose key is absent
from B has been deleted. -/
theorem claim_c1_snapshot_keys (db : DB) (B : List Holding) (hwf : db.WF) :
    ∀ i s,
      (∃ w ∈ (sync_holdings db B).holdings, w.investor_id = i ∧ w.stock_id = s) ↔
      (∃ h ∈ B, invId (sync_holdings db B).invTable h.investor = some i ∧
        stId (sync_holdings db B).stTable h.ticker = some s) :=
  (sync_holdings_spec db B hwf).2.2.1

/-- Witness for C1 at a concrete store and batch. -/
theorem claim_c1_witness :
    emptyDB.WF ∧
    (∀ i s,
      (∃ w ∈ (sync_holdings emptyDB [⟨"RARE", "TCS", "u", none, none, none⟩]).holdings,
        w.investor_id = i ∧ w.stock_id = s) ↔
      (∃ h ∈ [(⟨"RARE", "TCS", "u", none, none, none⟩ : Holding)],
        invId (sync_holdings emptyDB
          [⟨"RARE", "TCS", "u", none, none, none⟩]).invTable h.investor = some i ∧
        stId (sync_holdings emptyDB
          [⟨"RARE", "TCS", "u", none, none, none⟩]).stTable h.ticker = some s)) :=
  ⟨by decide, claim_c1_snapshot_keys emptyDB _ (by decide)⟩

/-- C8: sync_holdings is idempotent up to timestamps: running it twice with
the same batch leaves the holdings table exactly as after the first run
(timestamps are not modelled; every modelled column is unchanged). -/
theorem claim_c8_idempotent (db : DB) (B : List Holding) (hwf : db.WF) :
    (sync_holdings (sync_holdings db B) B).holdings
      = (sync_holdings db B).holdings :=
  sync_holdings_idemp db B hwf

/-- Witness for C8 at a concrete store and batch. -/
theorem claim_c8_witness :
    emptyDB.WF ∧
    (sync_holdings (sync_holdings emptyDB [⟨"A", "TCS", "u", none, none, none⟩])
        [⟨"A", "TCS", "u", none, none, none⟩]).holdings
      = (sync_holdings emptyDB [⟨"A", "TCS", "u", none, none, none⟩]).holdings :=
  ⟨by decide, claim_c8_idempotent emptyDB _ (by decide)⟩

/-- C7: last write wins within a batch: for records R1 then R2 resolving to
the same (investor, stock) key, with R2 the last record for that key, the
persisted holding row for the key exists and carries exactly R2's values. -/
theorem claim_c7_last_write_wins (db : DB) (B pre1 pre2 post : List Holding)
    (R1 R2 : Holding) (hwf : db.WF)
    (hB : B = pre1 ++ R1 :: pre2 ++ R2 :: post)
    (hsame : R1.investor = R2.investor ∧ R1.ticker = R2.ticker)
    (hlast : ∀ h2 ∈ post, ¬(h2.investor = R2.investor ∧ h2.ticker = R2.ticker)) :
    (∃ w ∈ (sync_holdings db B).holdings,
      invId (sync_holdings db B).invTable R2.investor = some w.investor_id ∧
      stId (sync_holdings db B).stTable R2.ticker = some w.stock_id) ∧
    (∀ w ∈ (sync_holdings db B).holdings,
      invId (sync_holdings db B).invTable R2.investor = some w.investor_id →
      stId (sync_holdings db B).stTable R2.ticker = some w.stock_id →
      valsH w = valsOfHolding R2) := by
  obtain ⟨hwfS, hres, hkeys, hvals⟩ := sync_holdings_spec db B hwf
  have hmem : R2 ∈ B := by
    rw [hB]
    simp
  rcases Option.isSome_iff_exists.1 (hres R2 hmem).1 with ⟨i, hi⟩
  rcases Option.isSome_iff_exists.1 (hres R2 hmem).2 with ⟨s, hs⟩
  constructor
  · rcases (hkeys i s).2 ⟨R2, hmem, hi, hs⟩ with ⟨w, hw, hwi, hws⟩
    exact ⟨w, hw, by rw [hi, hwi], by rw [hs, hws]⟩
  · intro w hw hiw hsw
    refine hvals R2 (pre1 ++ R1 :: pre2) post ?_ hlast w hw hiw hsw
    rw [hB]

/-- Witness for C7: two records for the same (investor, ticker) with
different share counts; the second one is the one persisted. -/
theorem claim_c7_witness :
    emptyDB.WF ∧
    ([(⟨"A", "TCS", "u", none, some 1, none⟩ : Holding),
      ⟨"A", "TCS", "u", none, some 2, none⟩]
      = [] ++ (⟨"A", "TCS", "u", none, some 1, none⟩ : Holding) :: [] ++
        (⟨"A", "TCS", "u", none, some 2, none⟩ : Holding) :: []) ∧
    ((∃ w ∈ (sync_holdings emptyDB
        [⟨"A", "TCS", "u", none, some 1, none⟩,
         ⟨"A", "TCS", "u", none, some 2, none⟩]).holdings,
      invId (sync_holdings emptyDB
        [⟨"A", "TCS", "u", none, some 1, none⟩,
         ⟨"A", "TCS", "u", none, some 2, none⟩]).invTable
          (⟨"A", "TCS", "u", none, some 2, none⟩ : Holding).investor
        = some w.investor_id ∧
      stId (sync_holdings emptyDB
        [⟨"A", "TCS", "u", none, some 1, none⟩,
         ⟨"A", "TCS", "u", none, some 2, none⟩]).stTable
          (⟨"A", "TCS", "u", none, some 2, none⟩ : Holding).ticker
        = some w.stock_id) ∧
    (∀ w ∈ (sync_holdings emptyDB
        [⟨"A", "TCS", "u", none, some 1, none⟩,
         ⟨"A", "TCS", "u", none, some 2, none⟩]).holdings,
      invId (sync_holdings emptyDB
        [⟨"A", "TCS", "u", none, some 1, none⟩,
         ⟨"A", "TCS", "u", none, some 2, none⟩]).invTable
          (⟨"A", "TCS", "u", none, some 2, none⟩ : Holding).investor
        = some w.investor_id →
      stId (sync_holdings emptyDB
        [⟨"A", "TCS", "u", none, some 1, none⟩,
         ⟨"A", "TCS", "u", none, some 2, none⟩]).stTable
          (⟨"A", "TCS", "u", none, some 2, none⟩ : Holding).ticker
        = some w.stock_id →
      valsH w = valsOfHolding ⟨"A", "TCS", "u", none, some 2, none⟩)) :=
  ⟨by decide, by decide,
   claim_c7_last_write_wins emptyDB _ [] [] []
     ⟨"A", "TCS", "u", none, some 1, none⟩ ⟨"A", "TCS", "u", none, some 2, none⟩
     (by decide) rfl (by decide) (by decide)⟩

/-- C4: only buy-side bulk deals reach bulk_deals and only buy-side block
deals reach block_deals (every persisted row takes its date, quantity and
price from a buy-side record of the matching kind — so a sell record never
appears), and in both adapters a source row whose date cell fails to parse
yields no deal at all: iteration ends there with an error, keeping only
deals from earlier rows. -/
theorem claim_c4_deal_filtering :
    (∀ (db : DB) (ds : List Deal), db.WF →
      ∀ w ∈ (sync_bulk_deals db ds).bulk_deals,
        ∃ d ∈ ds, pyLower d.deal_type = "bulk" ∧ pyLower d.side = "buy" ∧
          w.deal_date = d.deal_date ∧ valsD w = valsOfDeal d) ∧
    (∀ (db : DB) (ds : List Deal), db.WF →
      ∀ w ∈ (sync_block_deals db ds).block_deals,
        ∃ d ∈ ds, pyLower d.deal_type = "block" ∧ pyLower d.side = "buy" ∧
          w.deal_date = d.deal_date ∧ valsD w = valsOfDeal d) ∧
    (∀ (investor url dt a : String) (e : PErr) (row : SRow) (pre post : List SRow),
      row.cells.isEmpty = false → row.anchor = some a →
      parse_date (cellAt row.cells 1) = Except.error e →
      (screener_fetch_deals investor url dt (pre ++ row :: post)).1
        = (screener_fetch_deals investor url dt pre).1) ∧
    (∀ (investor url dt : String) (e : PErr) (row : TRow) (pre post : List TRow),
      row.cells.isEmpty = false →
      parse_date (cellAt row.cells 1) = Except.error e →
      (trendlyne_fetch_deals investor url dt (pre ++ row :: post)).1
        = (trendlyne_fetch_deals investor url dt pre).1) := by
  refine ⟨?_, ?_, ?_, ?_⟩
  · intro db ds hwf w hw
    rcases sync_deals_provenance db
        (ds.filter (fun d => pyLower d.deal_type = "bulk" ∧ pyLower d.side = "buy"))
        .bulk hwf.2.2.2.1 w hw with ⟨d, hd, hdate, hvals⟩
    have hdm := List.mem_of_mem_filter hd
    have hdp := List.of_mem_filter hd
    simp only [decide_eq_true_eq] at hdp
    exact ⟨d, hdm, hdp.1, hdp.2, hdate, hvals⟩
  · intro db ds hwf w hw
    rcases sync_deals_provenance db
        (ds.filter (fun d => pyLower d.deal_type = "block" ∧ pyLower d.side = "buy"))
        .block hwf.2.2.2.2 w hw with ⟨d, hd, hdate, hvals⟩
    have hdm := List.mem_of_mem_filter hd
    have hdp := List.of_mem_filter hd
    simp only [decide_eq_true_eq] at hdp
    exact ⟨d, hdm, hdp.1, hdp.2, hdate, hvals⟩
  · intro investor url dt a e row pre post hc ha hdate
    exact (fetchLoop_raise _ row e
      (screener_deal_row_raise investor url dt row a e hc ha hdate) pre post).1
  · intro investor url dt e row pre post hc hdate
    exact (fetchLoop_raise _ row e
      (trendlyne_deal_row_raise investor url dt row e hc hdate) pre post).1

/-- Witness for C4 at concrete inputs: a sell-side bulk deal batch, and
unparsable-date rows in both adapters. -/
theorem claim_c4_witness :
    emptyDB.WF ∧
    (∀ w ∈ (sync_bulk_deals emptyDB
        [⟨"A", "TCS", "u", ⟨2024, 1, 5⟩, none, none, "bulk", "sell"⟩]).bulk_deals,
      ∃ d ∈ [(⟨"A", "TCS", "u", ⟨2024, 1, 5⟩, none, none, "bulk", "sell"⟩ : Deal)],
        pyLower d.deal_type = "bulk" ∧ pyLower d.side = "buy" ∧
          w.deal_date = d.deal_date ∧ valsD w = valsOfDeal d) ∧
    (∀ w ∈ (sync_block_deals emptyDB
        [⟨"A", "TCS", "u", ⟨2024, 1, 5⟩, none, none, "block", "sell"⟩]).block_deals,
      ∃ d ∈ [(⟨"A", "TCS", "u", ⟨2024, 1, 5⟩, none, none, "block", "sell"⟩ : Deal)],
        pyLower d.deal_type = "block" ∧ pyLower d.side = "buy" ∧
          w.deal_date = d.deal_date ∧ valsD w = valsOfDeal d) ∧
    ((screener_fetch_deals "I" "u" "bulk"
        ([] ++ (⟨["X", "not-a-date", "buy"], some "X"⟩ : SRow) :: [])).1
      = (screener_fetch_deals "I" "u" "bulk" []).1) ∧
    ((trendlyne_fetch_deals "I" "u" "bulk"
        ([] ++ (⟨["X", "not-a-date", "buy"]⟩ : TRow) :: [])).1
      = (trendlyne_fetch_deals "I" "u" "bulk" []).1) :=
  ⟨by decide,
   claim_c4_deal_filtering.1 emptyDB _ (by decide),
   claim_c4_deal_filtering.2.1 emptyDB _ (by decide),
   claim_c4_deal_filtering.2.2.1 "I" "u" "bulk" "X" PErr.parseError _ [] []
     (by decide) rfl (by decide),
   claim_c4_deal_filtering.2.2.2 "I" "u" "bulk" PErr.parseError _ [] []
     (by decide) (by decide)⟩

/-- C2: end-to-end failure isolation: with one adapter yielding three
holdings and the other raising before yielding anything, gather_data hands
exactly the three holdings to the run; sync_holdings then persists exactly
three rows, the key set is exactly the three records' resolved keys, and no
surviving row belongs to the failing investor (its previous rows are
deleted as its desired set is empty). -/
theorem claim_c2_failed_adapter (db : DB) (hwf : db.WF) (nameF : String)
    (A1 A2 A3 : Holding)
    (hinv : ∀ h ∈ [A1, A2, A3], h.investor ≠ nameF)
    (hdistinct : ([A1, A2, A3].map (fun h => (h.investor, h.ticker))).Nodup) :
    gather_data [⟨[A1, A2, A3], false, [], false⟩, ⟨[], true, [], false⟩]
      = ([A1, A2, A3], []) ∧
    (sync_holdings db [A1, A2, A3]).holdings.length = 3 ∧
    (∀ i s, (∃ w ∈ (sync_holdings db [A1, A2, A3]).holdings,
        w.investor_id = i ∧ w.stock_id = s) ↔
      (∃ h ∈ [A1, A2, A3],
        invId (sync_holdings db [A1, A2, A3]).invTable h.investor = some i ∧
        stId (sync_holdings db [A1, A2, A3]).stTable h.ticker = some s)) ∧
    (∀ w ∈ (sync_holdings db [A1, A2, A3]).holdings,
      invId (sync_holdings db [A1, A2, A3]).invTable nameF ≠ some w.investor_id) := by
  obtain ⟨hwfS, hres, hkeys, hvals⟩ := sync_holdings_spec db [A1, A2, A3] hwf
  have hsomeKey : ∀ h ∈ [A1, A2, A3],
      invId (sync_holdings db [A1, A2, A3]).invTable h.investor
        = some (keyAtH (sync_holdings db [A1, A2, A3]).invTable
            (sync_holdings db [A1, A2, A3]).stTable h).1 ∧
      stId (sync_holdings db [A1, A2, A3]).stTable h.ticker
        = some (keyAtH (sync_holdings db [A1, A2, A3]).invTable
            (sync_holdings db [A1, A2, A3]).stTable h).2 := by
    intro h hh
    rcases Option.isSome_iff_exists.1 (hres h hh).1 with ⟨a, ha⟩
    rcases Option.isSome_iff_exists.1 (hres h hh).2 with ⟨b, hb⟩
    unfold keyAtH
    rw [ha, hb]
    exact ⟨rfl, rfl⟩
  have hkmem : ∀ k : Nat × Nat,
      (∃ w ∈ (sync_holdings db [A1, A2, A3]).holdings, holdingKey w = k) ↔
      k ∈ [A1, A2, A3].map (keyAtH (sync_holdings db [A1, A2, A3]).invTable
        (sync_holdings db [A1, A2, A3]).stTable) := by
    intro k
    constructor
    · rintro ⟨w, hw, hwk⟩
      rcases (hkeys k.1 k.2).1
          ⟨w, hw, congrArg Prod.fst hwk, congrArg Prod.snd hwk⟩ with ⟨h, hh, hi, hs⟩
      refine List.mem_map.2 ⟨h, hh, ?_⟩
      have h1 := (hsomeKey h hh).1
      have h2 := (hsomeKey h hh).2
      rw [hi] at h1
      rw [hs] at h2
      have e1 : (keyAtH _ _ h).1 = k.1 := (Option.some_injective _ h1.symm)
      have e2 : (keyAtH _ _ h).2 = k.2 := (Option.some_injective _ h2.symm)
      calc keyAtH _ _ h = ((keyAtH _ _ h).1, (keyAtH _ _ h).2) := rfl
        _ = (k.1, k.2) := by rw [e1, e2]
        _ = k := rfl
    · intro hk
      rcases List.mem_map.1 hk with ⟨h, hh, he⟩
      rcases (hkeys k.1 k.2).2 ⟨h, hh, by rw [(hsomeKey h hh).1, he],
        by rw [(hsomeKey h hh).2, he]⟩ with ⟨w, hw, hwi, hws⟩
      refine ⟨w, hw, ?_⟩
      calc holdingKey w = (w.investor_id, w.stock_id) := rfl
        _ = (k.1, k.2) := by rw [hwi, hws]
        _ = k := rfl
  refine ⟨rfl, ?_, hkeys, ?_⟩
  · -- the count: both key lists are duplicate-free with the same members
    have hnodup1 : ((sync_holdings db [A1, A2, A3]).holdings.map holdingKey).Nodup :=
      List.pairwise_map.2 hwfS.2.2.1.2.1
    have hinj : ∀ a ∈ [A1, A2, A3], ∀ b ∈ [A1, A2, A3],
        keyAtH (sync_holdings db [A1, A2, A3]).invTable
          (sync_holdings db [A1, A2, A3]).stTable a
        = keyAtH (sync_holdings db [A1, A2, A3]).invTable
          (sync_holdings db [A1, A2, A3]).stTable b →
        (a.investor, a.ticker) = (b.investor, b.ticker) := by
      intro a ha b hb he
      have hai := (hsomeKey a ha).1
      have hbi := (hsomeKey b hb).1
      have has := (hsomeKey a ha).2
      have hbs := (hsomeKey b hb).2
      rw [congrArg Prod.fst he] at hai
      rw [congrArg Prod.snd he] at has
      have hnameeq : a.investor = b.investor := invId_inj hwfS.1 hai hbi
      have htickeq : a.ticker = b.ticker := stId_inj hwfS.2.1 has hbs
      rw [hnameeq, htickeq]
    have hnodup2 : ([A1, A2, A3].map (keyAtH (sync_holdings db [A1, A2, A3]).invTable
        (sync_holdings db [A1, A2, A3]).stTable)).Nodup := by
      refine List.pairwise_map.2 ?_
      have hpairs : ([A1, A2, A3] : List Holding).Pairwise
          (fun a b => (a.investor, a.ticker) ≠ (b.investor, b.ticker)) :=
        List.pairwise_map.1 hdistinct
      refine hpairs.imp_of_mem ?_
      intro a b ha hb hne he
      exact hne (hinj a ha b hb he)
    have hsetEq : ((sync_holdings db [A1, A2, A3]).holdings.map holdingKey).toFinset
        = ([A1, A2, A3].map (keyAtH (sync_holdings db [A1, A2, A3]).invTable
            (sync_holdings db [A1, A2, A3]).stTable)).toFinset := by
      refine Finset.ext ?_
      intro k
      rw [List.mem_toFinset, List.mem_toFinset]
      rw [← hkmem k]
      constructor
      · intro hk
        rcases List.mem_map.1 hk with ⟨w, hw, he⟩
        exact ⟨w, hw, he⟩
      · rintro ⟨w, hw, he⟩
        exact List.mem_map.2 ⟨w, hw, he⟩
    have hlen1 : ((sync_holdings db [A1, A2, A3]).holdings.map holdingKey).length
        = (sync_holdings db [A1, A2, A3]).holdings.length := List.length_map _ _
    have hlen2 := List.toFinset_card_of_nodup hnodup1
    have hlen3 := List.toFinset_card_of_nodup hnodup2
    rw [← hlen1, ← hlen2, hsetEq, hlen3]
    simp
  · -- no surviving row belongs to the failing investor
    intro w hw hFid
    rcases (hkeys w.investor_id w.stock_id).1 ⟨w, hw, rfl, rfl⟩ with ⟨h, hh, hi, hs⟩
    have : h.investor = nameF := invId_inj hwfS.1 hi hFid
    exact hinv h hh this

/-- Witness for C2: three concrete holdings of investor "A" with distinct
tickers, a failing investor "F". -/
theorem claim_c2_witness :
    emptyDB.WF ∧
    (∀ h ∈ [(⟨"A", "T1", "u", none, none, none⟩ : Holding),
        ⟨"A", "T2", "u", none, none, none⟩, ⟨"A", "T3", "u", none, none, none⟩],
      h.investor ≠ "F") ∧
    (([(⟨"A", "T1", "u", none, none, none⟩ : Holding),
        ⟨"A", "T2", "u", none, none, none⟩, ⟨"A", "T3", "u", none, none, none⟩].map
          (fun h => (h.investor, h.ticker))).Nodup) ∧
    (gather_data [⟨[⟨"A", "T1", "u", none, none, none⟩,
          ⟨"A", "T2", "u", none, none, none⟩, ⟨"A", "T3", "u", none, none, none⟩],
          false, [], false⟩, ⟨[], true, [], false⟩]
      = ([⟨"A", "T1", "u", none, none, none⟩, ⟨"A", "T2", "u", none, none, none⟩,
          ⟨"A", "T3", "u", none, none, none⟩], []) ∧
    (sync_holdings emptyDB [⟨"A", "T1", "u", none, none, none⟩,
        ⟨"A", "T2", "u", none, none, none⟩,
        ⟨"A", "T3", "u", none, none, none⟩]).holdings.length = 3 ∧
    (∀ i s, (∃ w ∈ (sync_holdings emptyDB [⟨"A", "T1", "u", none, none, none⟩,
          ⟨"A", "T2", "u", none, none, none⟩,
          ⟨"A", "T3", "u", none, none, none⟩]).holdings,
        w.investor_id = i ∧ w.stock_id = s) ↔
      (∃ h ∈ [(⟨"A", "T1", "u", none, none, none⟩ : Holding),
          ⟨"A", "T2", "u", none, none, none⟩, ⟨"A", "T3", "u", none, none, none⟩],
        invId (sync_holdings emptyDB [⟨"A", "T1", "u", none, none, none⟩,
            ⟨"A", "T2", "u", none, none, none⟩,
            ⟨"A", "T3", "u", none, none, none⟩]).invTable h.investor = some i ∧
        stId (sync_holdings emptyDB [⟨"A", "T1", "u", none, none, none⟩,
            ⟨"A", "T2", "u", none, none, none⟩,
            ⟨"A", "T3", "u", none, none, none⟩]).stTable h.ticker = some s)) ∧
    (∀ w ∈ (sync_holdings emptyDB [⟨"A", "T1", "u", none, none, none⟩,
          ⟨"A", "T2", "u", none, none, none⟩,
          ⟨"A", "T3", "u", none, none, none⟩]).holdings,
      invId (sync_holdings emptyDB [⟨"A", "T1", "u", none, none, none⟩,
          ⟨"A", "T2", "u", none, none, none⟩,
          ⟨"A", "T3", "u", none, none, none⟩]).invTable "F" ≠ some w.investor_id)) :=
  ⟨by decide, by decide, by decide,
   claim_c2_failed_adapter emptyDB (by decide) "F" _ _ _ (by decide) (by decide)⟩
